import Mathlib

/-!
Verification development for the binary Merkle-Patricia tree engine in
`src/primitives/starknet/src/crypto/merkle_patricia_tree/merkle_tree.rs`.

The tree engine (`MerkleTree::{traverse, set, delete_leaf, get, get_proof,
commit, dfs, merge_edges, resolve}`) is embedded as pure Lean functions.
The in-memory tree of `Rc<RefCell<Node>>` handles is modelled by a pure
`Node` value; operations that mutate handles in place (traversal resolves
`Unresolved` handles, `set` / `delete_leaf` splice subtrees) are modelled
as functions returning the rebuilt root.  The loop in `traverse` is driven
by explicit fuel and returns `none` when fuel runs out or when `resolve`
hits a fatal condition (storage miss, leaf record at interior depth), both
of which abort (`unwrap` / `panic!`) in the source.

The node model itself (`merkle_node.rs`: the `Node` enum, `Direction`, and
the helpers `direction`, `get_child`, `path_matches`, `common_path`,
`hash`, `is_empty`, `is_binary`, `mark_dirty`) is not among the provided
sources; those definitions are modelled from the specification (spec.md
sections 3 and 4) and are marked `Modelled from the spec:` below.  The
hash capability is abstract in the source (`CryptoHasher`), so commitment
is parameterised by a binary-node hasher `Hb` and an edge-node hasher `He`.

Bit-slice indexing (`key[i]`, `key[i..]`) panics in Rust when out of
range; the model totalises it with a `false` default / `List.drop`, which
only differs on trees violating the spec's height invariant.

For the frame claim about `dfs` (which, unlike `traverse`, never
overwrites an existing handle), the `Rc<RefCell<_>>` graph is additionally
modelled explicitly: a heap is a list of nodes, an address is an index,
`Rc::new` is an append and `RefCell::swap` is a `List.set`.
-/

namespace MPT

/-- Field elements: only `ZERO`, equality and the injected hasher matter here. -/
abbrev Felt := Nat

/-- Modelled from the spec: the node variants of `merkle_node.rs` (spec 3).
`hash = none` is a dirty node; `Unresolved 0` is the empty sentinel. -/
inductive Node where
  | unresolved (hash : Felt)
  | leaf (value : Felt)
  | binary (hash : Option Felt) (height : Nat) (left right : Node)
  | edge (hash : Option Felt) (height : Nat) (path : List Bool) (child : Node)
  deriving DecidableEq, Repr

/-- `PersistedNode` from the source (lines 115-124). -/
inductive PersistedNode where
  | binary (left right : Felt)
  | edge (path : List Bool) (child : Felt)
  | leaf
  deriving DecidableEq, Repr

/-- The read side of the `NodeStorage` trait. -/
abbrev Storage := Felt → Option PersistedNode

/-- Modelled from the spec: `Node::hash()` — the cached hash of a node; an
unresolved node's hash is the hash it names and a leaf's hash is its value. -/
def Node.hashOf : Node → Option Felt
  | .unresolved h => some h
  | .leaf v => some v
  | .binary h _ _ _ => h
  | .edge h _ _ _ => h

/-- Modelled from the spec: `Node::is_empty()` — the `Unresolved(0)` sentinel. -/
def Node.isEmptyNode : Node → Bool
  | .unresolved h => h == 0
  | _ => false

/-- Modelled from the spec: `Node::is_binary()`. -/
def Node.isBinaryNode : Node → Bool
  | .binary _ _ _ _ => true
  | _ => false

/-- Modelled from the spec: `Direction::from(key[height])` collapsed to `Bool`
(`false` = Left, `true` = Right, spec 3). -/
def keyBit (k : List Bool) (i : Nat) : Bool :=
  k.getD i false

/-- Boolean prefix test on bit paths. -/
def isPfx : List Bool → List Bool → Bool
  | [], _ => true
  | _ :: _, [] => false
  | a :: as, b :: bs => a == b && isPfx as bs

/-- Modelled from the spec: `EdgeNode::path_matches` — the edge's path is a
prefix of `key[height..]` (spec 4.1), with the node's stored height. -/
def pathMatches (height : Nat) (p k : List Bool) : Bool :=
  isPfx p (k.drop height)

/-- Modelled from the spec: `EdgeNode::common_path` — longest common prefix of
the edge's path and `key[edge.height..]` (spec 4.3). -/
def commonPrefix : List Bool → List Bool → List Bool
  | a :: as, b :: bs => if a = b then a :: commonPrefix as bs else []
  | _, _ => []

/-- `Vec::last()` on the traversal path. -/
def lastNode : List Node → Option Node
  | [] => none
  | [a] => some a
  | _ :: b :: rest => lastNode (b :: rest)

/-- `MerkleTree::resolve` (source lines 562-595): at `max_height` synthesize a
leaf from the hash; otherwise fetch the persisted record, failing fatally
(`none`) on a miss or on a leaf record at interior depth. -/
def resolve (stor : Storage) (maxH : Nat) (h : Felt) (height : Nat) : Option Node :=
  if height = maxH then some (.leaf h)
  else
    match stor h with
    | some (.binary l r) =>
        some (.binary (some h) height (.unresolved l) (.unresolved r))
    | some (.edge p c) => some (.edge (some h) height p (.unresolved c))
    | some .leaf => none
    | none => none

/-- The loop of `MerkleTree::traverse` (source lines 517-556).  Returns the
rebuilt subtree (resolution rewrites handles in place) together with the list
of handles pushed onto the path, valued as the tree holds them on return. -/
def traverseGo (stor : Storage) (maxH : Nat) (k : List Bool) :
    Nat → Node → Nat → Option (Node × List Node)
  | 0, _, _ => none
  | fuel + 1, node, height =>
    match node with
    | .unresolved h =>
        match resolve stor maxH h height with
        | none => none
        | some n => traverseGo stor maxH k fuel n height
    | .binary hs hgt l r =>
        if keyBit k hgt then
          match traverseGo stor maxH k fuel r (height + 1) with
          | none => none
          | some (r', ns) => some (.binary hs hgt l r', .binary hs hgt l r' :: ns)
        else
          match traverseGo stor maxH k fuel l (height + 1) with
          | none => none
          | some (l', ns) => some (.binary hs hgt l' r, .binary hs hgt l' r :: ns)
    | .edge hs hgt p c =>
        if pathMatches hgt p k then
          match traverseGo stor maxH k fuel c (height + p.length) with
          | none => none
          | some (c', ns) => some (.edge hs hgt p c', .edge hs hgt p c' :: ns)
        else some (.edge hs hgt p c, [.edge hs hgt p c])
    | .leaf v => some (.leaf v, [.leaf v])

/-- `MerkleTree::traverse`: an empty tree yields an empty path. -/
def traverse (stor : Storage) (maxH : Nat) (root : Node) (k : List Bool) (fuel : Nat) :
    Option (Node × List Node) :=
  if root.isEmptyNode then some (root, [])
  else traverseGo stor maxH k fuel root 0

/-- `MerkleTree::get` (source lines 463-468). -/
def get (stor : Storage) (maxH : Nat) (root : Node) (k : List Bool) (fuel : Nat) :
    Option (Option Felt) :=
  (traverse stor maxH root k fuel).map fun pr =>
    match lastNode pr.2 with
    | some (.leaf v) => if v = 0 then none else some v
    | _ => none

/-- The edge-splitting arm of `MerkleTree::set` (source lines 299-359). -/
def splitEdge (k : List Bool) (v : Felt) (hgt : Nat) (p : List Bool) (c : Node) : Node :=
  let common := commonPrefix p (k.drop hgt)
  let branchHeight := hgt + common.length
  let childHeight := branchHeight + 1
  let newPath := k.drop childHeight
  let oldPath := p.drop (common.length + 1)
  let newBranch : Node :=
    if newPath.isEmpty then .leaf v else .edge none childHeight newPath (.leaf v)
  let oldBranch : Node :=
    if oldPath.isEmpty then c else .edge none childHeight oldPath c
  let branch : Node :=
    if keyBit k branchHeight then .binary none branchHeight oldBranch newBranch
    else .binary none branchHeight newBranch oldBranch
  if common.isEmpty then branch else .edge none hgt common branch

/-- The non-empty arm of `MerkleTree::set`: descend along the key exactly as
`traverse` does, clearing the cached hash of every path node (`mark_dirty`),
and rewrite the terminus (replace a leaf's value, or split a diverging edge). -/
def setGo (stor : Storage) (maxH : Nat) (k : List Bool) (v : Felt) :
    Nat → Node → Nat → Option Node
  | 0, _, _ => none
  | fuel + 1, node, height =>
    match node with
    | .unresolved h =>
        match resolve stor maxH h height with
        | none => none
        | some n => setGo stor maxH k v fuel n height
    | .binary _ hgt l r =>
        if keyBit k hgt then
          match setGo stor maxH k v fuel r (height + 1) with
          | none => none
          | some r' => some (.binary none hgt l r')
        else
          match setGo stor maxH k v fuel l (height + 1) with
          | none => none
          | some l' => some (.binary none hgt l' r)
    | .edge _ hgt p c =>
        if pathMatches hgt p k then
          match setGo stor maxH k v fuel c (height + p.length) with
          | none => none
          | some c' => some (.edge none hgt p c')
        else some (splitEdge k v hgt p c)
    | .leaf _ => some (.leaf v)

/-- `MerkleTree::merge_edges` (source lines 604-614) on an edge's fields:
resolve an unresolved child at `height + path.len()`, and if the (resolved)
child is an edge, concatenate paths and reparent; otherwise leave the parent
unchanged (a resolved non-edge child is discarded, not stored back). -/
def mergeEdges (stor : Storage) (maxH : Nat) (hgt : Nat) (p : List Bool) (c : Node) :
    Option (List Bool × Node) :=
  let rc : Option Node :=
    match c with
    | .unresolved h => resolve stor maxH h (hgt + p.length)
    | other => some other
  match rc with
  | none => none
  | some (.edge _ _ p2 c2) => some (p ++ p2, c2)
  | some _ => some (p, c)

/-- Outcome of the recursive walk of `MerkleTree::delete_leaf` over a subtree:
`absent` = the traversal terminus was not a leaf (no-op, resolutions kept);
`noBinary` = the terminus was a leaf and no binary node lies at or below here;
`spliced` = this position was the deepest binary and now holds the merged edge;
`kept` = a deeper splice happened and this rebuilt (dirty) node survives. -/
inductive DelRes where
  | absent (n : Node)
  | noBinary
  | spliced (height : Nat) (path : List Bool) (child : Node)
  | kept (n : Node)
  deriving DecidableEq, Repr

/-- The recursive walk of `MerkleTree::delete_leaf` (source lines 392-460):
descend along the key (resolving as `traverse` does); if the terminus is not
a leaf, do nothing; otherwise replace the deepest binary on the path by an
edge toward its surviving child (direction inverted), `merge_edges` it, and
if its immediate ancestor on the path is an edge, merge that one too; every
surviving path node is marked dirty. -/
def deleteGo (stor : Storage) (maxH : Nat) (k : List Bool) :
    Nat → Node → Nat → Option DelRes
  | 0, _, _ => none
  | fuel + 1, node, height =>
    match node with
    | .unresolved h =>
        match resolve stor maxH h height with
        | none => none
        | some n => deleteGo stor maxH k fuel n height
    | .leaf _ => some .noBinary
    | .binary hs hgt l r =>
        match deleteGo stor maxH k fuel (if keyBit k hgt then r else l) (height + 1) with
        | none => none
        | some (.absent c') =>
            some (.absent (if keyBit k hgt then .binary hs hgt l c'
              else .binary hs hgt c' r))
        | some .noBinary =>
            match mergeEdges stor maxH hgt [!keyBit k hgt]
                (if keyBit k hgt then l else r) with
            | none => none
            | some (p1, c1) => some (.spliced hgt p1 c1)
        | some (.spliced h2 p2 c2) =>
            some (.kept (if keyBit k hgt then .binary none hgt l (.edge none h2 p2 c2)
              else .binary none hgt (.edge none h2 p2 c2) r))
        | some (.kept c') =>
            some (.kept (if keyBit k hgt then .binary none hgt l c'
              else .binary none hgt c' r))
    | .edge hs hgt p c =>
        if pathMatches hgt p k then
          match deleteGo stor maxH k fuel c (height + p.length) with
          | none => none
          | some (.absent c') => some (.absent (.edge hs hgt p c'))
          | some .noBinary => some .noBinary
          | some (.spliced _ p2 c2) => some (.kept (.edge none hgt (p ++ p2) c2))
          | some (.kept c') => some (.kept (.edge none hgt p c'))
        else some (.absent (.edge hs hgt p c))

/-- `MerkleTree::delete_leaf` at the root: an empty tree is a no-op; if no
binary node lies on the path the root is reset to `Unresolved(0)`; a splice at
the root installs the merged edge. -/
def deleteLeaf (stor : Storage) (maxH : Nat) (root : Node) (k : List Bool) (fuel : Nat) :
    Option Node :=
  if root.isEmptyNode then some root
  else
    match deleteGo stor maxH k fuel root 0 with
    | none => none
    | some (.absent n) => some n
    | some .noBinary => some (.unresolved 0)
    | some (.spliced hgt p c) => some (.edge none hgt p c)
    | some (.kept n) => some n

/-- `MerkleTree::set` (source lines 266-386): value zero delegates to
`delete_leaf`; an empty tree becomes a single edge to the new leaf. -/
def set (stor : Storage) (maxH : Nat) (root : Node) (k : List Bool) (v : Felt)
    (fuel : Nat) : Option Node :=
  if v = 0 then deleteLeaf stor maxH root k fuel
  else if root.isEmptyNode then some (.edge none 0 k (.leaf v))
  else setGo stor maxH k v fuel root 0

/-- `MerkleTree::commit_subtree` (source lines 231-264), parameterised by the
binary and edge hashers; returns the hashed tree and the upserts performed,
in order.  Unresolved, leaf and already-hashed nodes are skipped. -/
def commitSubtree (Hb : Felt → Felt → Felt) (He : Felt → List Bool → Felt) :
    Node → Node × List (Felt × PersistedNode)
  | .unresolved h => (.unresolved h, [])
  | .leaf v => (.leaf v, [])
  | .binary (some h) hgt l r => (.binary (some h) hgt l r, [])
  | .binary none hgt l r =>
      let pl := commitSubtree Hb He l
      let pr := commitSubtree Hb He r
      let lh := pl.1.hashOf.getD 0
      let rh := pr.1.hashOf.getD 0
      let h := Hb lh rh
      (.binary (some h) hgt pl.1 pr.1, pl.2 ++ pr.2 ++ [(h, .binary lh rh)])
  | .edge (some h) hgt p c => (.edge (some h) hgt p c, [])
  | .edge none hgt p c =>
      let pc := commitSubtree Hb He c
      let ch := pc.1.hashOf.getD 0
      let h := He ch p
      (.edge (some h) hgt p pc.1, pc.2 ++ [(h, .edge p ch)])

/-- `MerkleTree::commit_mut` (source lines 210-222): commit the root subtree
and read off the root hash.  Returns the hash, the committed tree, and the
upserts performed. -/
def commitMut (Hb : Felt → Felt → Felt) (He : Felt → List Bool → Felt) (root : Node) :
    Felt × Node × List (Felt × PersistedNode) :=
  let pr := commitSubtree Hb He root
  (pr.1.hashOf.getD 0, pr.1, pr.2)

/-- The hash a commit assigns to a node: cached hashes are kept, dirty
interior nodes are recomputed from their children. -/
def chash (Hb : Felt → Felt → Felt) (He : Felt → List Bool → Felt) : Node → Felt
  | .unresolved h => h
  | .leaf v => v
  | .binary (some h) _ _ _ => h
  | .binary none _ l r => Hb (chash Hb He l) (chash Hb He r)
  | .edge (some h) _ _ _ => h
  | .edge none _ p c => He (chash Hb He c) p

/-- `ProofNode` (source lines 126-135): proofs contain only binary and edge
records, never leaves or unresolved nodes. -/
inductive ProofNode where
  | binary (leftHash rightHash : Felt)
  | edge (path : List Bool) (childHash : Felt)
  deriving DecidableEq, Repr

/-- The `From` conversions into `ProofNode` (source lines 71-96): child hashes
must be present (`expect` aborts otherwise); a leaf or unresolved node has no
proof record (`unreachable!`). -/
def toProofNode : Node → Option ProofNode
  | .binary _ _ l r =>
      match l.hashOf, r.hashOf with
      | some lh, some rh => some (.binary lh rh)
      | _, _ => none
  | .edge _ _ p c => c.hashOf.map fun ch => ProofNode.edge p ch
  | _ => none

/-- Effectful `map` over a list in `Option`. -/
def mapOpt (f : α → Option β) : List α → Option (List β)
  | [] => some []
  | x :: xs =>
      match f x, mapOpt f xs with
      | some y, some ys => some (y :: ys)
      | _, _ => none

/-- `MerkleTree::get_proof` (source lines 481-503): traverse, return `[]` for
an empty tree, drop a trailing leaf, convert the remaining path nodes. -/
def getProof (stor : Storage) (maxH : Nat) (root : Node) (k : List Bool) (fuel : Nat) :
    Option (List ProofNode) :=
  match traverse stor maxH root k fuel with
  | none => none
  | some (_, ns) =>
      match lastNode ns with
      | none => some []
      | some last =>
          let core := match last with
            | .leaf _ => ns.dropLast
            | _ => ns
          mapOpt toProofNode core

/-- Heights along the key path are consistent with depths (spec invariant 4),
checked only where traversal routes. -/
def heightsOkAlong (k : List Bool) : Node → Nat → Bool
  | .unresolved _, _ => true
  | .leaf _, _ => true
  | .binary _ hgt l r, h =>
      hgt == h &&
        (if keyBit k hgt then heightsOkAlong k r (h + 1) else heightsOkAlong k l (h + 1))
  | .edge _ hgt p c, h =>
      hgt == h && (!pathMatches hgt p k || heightsOkAlong k c (h + p.length))

/-! ### Path-indexed description of deletion (spec 4.4)

The spec describes `delete_leaf` through the traversal path: mark the path
dirty, find the deepest binary node on it, replace it by the merged edge
toward its surviving child, and merge the immediate ancestor if that is an
edge.  The following definitions state that description directly over the
path list returned by `traverse` so that the implementation can be proved
to refine it. -/

/-- Index of the deepest (last) binary node in a traversal path. -/
def lastBinaryIdx : List Node → Option Nat
  | [] => none
  | x :: xs =>
      match lastBinaryIdx xs with
      | some i => some (i + 1)
      | none => if x.isBinaryNode then some 0 else none

/-- Clear the cached hash of every node along the key's traversal route
(`mark_dirty` applied to the whole path). -/
def dirtyAlong (k : List Bool) : Node → Node
  | .binary _ hgt l r =>
      if keyBit k hgt then .binary none hgt l (dirtyAlong k r)
      else .binary none hgt (dirtyAlong k l) r
  | .edge _ hgt p c =>
      if pathMatches hgt p k then .edge none hgt p (dirtyAlong k c)
      else .edge none hgt p c
  | .leaf v => .leaf v
  | .unresolved h => .unresolved h

/-- Replace the `i`-th node of the key's traversal route (counted as the path
list counts: one entry per binary or edge stepped through). -/
def replaceNth (k : List Bool) : Node → Nat → Node → Node
  | _, 0, repl => repl
  | .binary hs hgt l r, i + 1, repl =>
      if keyBit k hgt then .binary hs hgt l (replaceNth k r i repl)
      else .binary hs hgt (replaceNth k l i repl) r
  | .edge hs hgt p c, i + 1, repl => .edge hs hgt p (replaceNth k c i repl)
  | other, _ + 1, _ => other

/-- The tree after the splice of spec 4.4: dirty the whole path, replace the
node at index `i` (the deepest binary) by the merged edge, and if the node at
index `i - 1` is an edge, fuse it with the new edge in its place. -/
def specRebuild (k : List Bool) (root : Node) (lst : List Node) (i : Nat)
    (bhgt : Nat) (p1 : List Bool) (c1 : Node) : Node :=
  let base := replaceNth k (dirtyAlong k root) i (.edge none bhgt p1 c1)
  match i, lst.get? (i - 1) with
  | 0, _ => base
  | _ + 1, some (.edge _ h0 p0 _) =>
      replaceNth k base (i - 1) (.edge none h0 (p0 ++ p1) c1)
  | _ + 1, _ => base

/-- Deletion as spec 4.4 words it, over the resolved root and the traversal
path: no binary on the path empties the tree; otherwise the deepest binary at
index `i` is replaced in place (after dirtying the whole path) by the
`merge_edges`-normalised edge toward its surviving child (inverted direction),
and if the node at `i - 1` is an edge it is merged with the new edge too. -/
def deleteSpec (stor : Storage) (maxH : Nat) (k : List Bool) (root : Node)
    (lst : List Node) : Option Node :=
  match lastBinaryIdx lst with
  | none => some (.unresolved 0)
  | some i =>
      match lst.get? i with
      | some (.binary _ bhgt bl br) =>
          match mergeEdges stor maxH bhgt [!keyBit k bhgt]
              (if keyBit k bhgt then bl else br) with
          | none => none
          | some (p1, c1) => some (specRebuild k root lst i bhgt p1 c1)
      | _ => none

/-! ### Explicit-heap model of the handle graph

`dfs` (source lines 627-707) differs from `traverse` in how it treats the
`Rc<RefCell<Node>>` handles: `traverse` swaps a resolved node into the
existing handle, while `dfs` wraps it in a fresh `Rc` and never writes to an
existing cell.  To state that, the handle graph is modelled explicitly: a
heap is a list of cells, an address is an index, allocation appends, and a
swap is `List.set`. -/

/-- A node whose children are heap addresses. -/
inductive HNode where
  | unresolved (hash : Felt)
  | leaf (value : Felt)
  | binary (hash : Option Felt) (height : Nat) (left right : Nat)
  | edge (hash : Option Felt) (height : Nat) (path : List Bool) (child : Nat)
  deriving DecidableEq, Repr

abbrev Heap := List HNode

/-- `resolve` over the heap: the record's sub-hashes become freshly allocated
unresolved cells (`Rc::new` in the source). -/
def resolveH (stor : Storage) (maxH : Nat) (h : Felt) (height : Nat) (heap : Heap) :
    Option (Heap × HNode) :=
  if height = maxH then some (heap, .leaf h)
  else
    match stor h with
    | some (.binary l r) =>
        some (heap ++ [.unresolved l, .unresolved r],
          .binary (some h) height heap.length (heap.length + 1))
    | some (.edge p c) =>
        some (heap ++ [.unresolved c], .edge (some h) height p heap.length)
    | some .leaf => none
    | none => none

/-- Visitor verdicts (`ControlFlow<X, Visit>` in the source). -/
inductive VRet (X : Type) where
  | continueDeeper
  | stopSubtree
  | breakWith (x : X)

/-- `MerkleTree::dfs` (source lines 627-707) over the explicit heap, with a
log of the `(node, path)` pairs handed to the visitor.  Faithful to the
source, the zero test `matches!(current_node, Node::Unresolved(_zero))` binds
`_zero` as a pattern variable and therefore matches every unresolved node, so
the visitor is consulted only for non-unresolved nodes; unresolved nodes with
a non-zero hash are resolved into a fresh cell and re-pushed unconditionally. -/
def dfsH (stor : Storage) (maxH : Nat) (f : HNode → List Bool → VRet X) :
    Nat → Heap → List (Nat × List Bool) → List (HNode × List Bool) →
    Option (Heap × Option X × List (HNode × List Bool))
  | 0, _, _, _ => none
  | _ + 1, heap, [], log => some (heap, none, log)
  | fuel + 1, heap, (a, p) :: rest, log =>
      match heap.get? a with
      | none => none
      | some (.unresolved h) =>
          if h = 0 then dfsH stor maxH f fuel heap rest log
          else
            match resolveH stor maxH h p.length heap with
            | none => none
            | some (heap', n') =>
                dfsH stor maxH f fuel (heap' ++ [n']) ((heap'.length, p) :: rest) log
      | some n =>
          match f n p with
          | .breakWith x => some (heap, some x, log ++ [(n, p)])
          | .stopSubtree => dfsH stor maxH f fuel heap rest (log ++ [(n, p)])
          | .continueDeeper =>
              match n with
              | .binary _ _ l r =>
                  dfsH stor maxH f fuel heap
                    ((l, p ++ [false]) :: (r, p ++ [true]) :: rest) (log ++ [(n, p)])
              | .edge _ _ ep c =>
                  dfsH stor maxH f fuel heap ((c, p ++ ep) :: rest) (log ++ [(n, p)])
              | _ => dfsH stor maxH f fuel heap rest (log ++ [(n, p)])

/-- The loop of `traverse` over the explicit heap: resolution swaps the
resolved node into the existing cell (`current.swap`), overwriting it. -/
def traverseHGo (stor : Storage) (maxH : Nat) (k : List Bool) :
    Nat → Heap → Nat → Nat → Option (Heap × List Nat)
  | 0, _, _, _ => none
  | fuel + 1, heap, a, height =>
      match heap.get? a with
      | none => none
      | some (.unresolved h) =>
          match resolveH stor maxH h height heap with
          | none => none
          | some (heap', n') => traverseHGo stor maxH k fuel (heap'.set a n') a height
      | some (.binary _ hgt l r) =>
          (traverseHGo stor maxH k fuel heap (if keyBit k hgt then r else l)
            (height + 1)).map fun pr => (pr.1, a :: pr.2)
      | some (.edge _ hgt p c) =>
          if pathMatches hgt p k then
            (traverseHGo stor maxH k fuel heap c (height + p.length)).map
              fun pr => (pr.1, a :: pr.2)
          else some (heap, [a])
      | some (.leaf _) => some (heap, [a])

/-- The null storage (`impl NodeStorage for ()`). -/
def nullStorage : Storage := fun _ => none

/-! ### Basic lemmas about paths and prefixes -/

theorem isPfx_refl : ∀ l : List Bool, isPfx l l = true := by
  intro l
  induction l with
  | nil => rfl
  | cons a as ih => simp [isPfx, ih]

theorem commonPrefix_isPfx : ∀ a b : List Bool, isPfx (commonPrefix a b) b = true := by
  intro a
  induction a with
  | nil => intro b; cases b <;> rfl
  | cons x xs ih =>
      intro b
      cases b with
      | nil => rfl
      | cons y ys =>
          by_cases hxy : x = y
          · subst hxy
            simp [commonPrefix, isPfx, ih]
          · simp [commonPrefix, hxy, isPfx]

theorem isPfx_append (p q c : List Bool) :
    isPfx (p ++ q) c = (isPfx p c && isPfx q (c.drop p.length)) := by
  induction p generalizing c with
  | nil => simp [isPfx]
  | cons a as ih =>
      cases c with
      | nil => simp [isPfx]
      | cons x xs =>
          simp only [List.cons_append, isPfx, List.length_cons, List.drop_succ_cons,
            List.append_eq]
          rw [ih xs, Bool.and_assoc]

theorem drop_cons_keyBit :
    ∀ (m : Nat) (k : List Bool) (x : Bool) (xs : List Bool),
      k.drop m = x :: xs → keyBit k m = x := by
  intro m
  induction m with
  | zero =>
      intro k x xs h
      simp only [List.drop_zero] at h
      subst h
      rfl
  | succ m ih =>
      intro k x xs h
      cases k with
      | nil => simp at h
      | cons y ys =>
          simp only [List.drop_succ_cons] at h
          simpa [keyBit, List.getD] using ih ys x xs h

/-- A bit path whose first bit is the negation of the key's bit at position
`m` is not a prefix of `key[m..]`. -/
theorem isPfx_neg_head (k : List Bool) (m : Nat) (p2 : List Bool) :
    isPfx ((!keyBit k m) :: p2) (k.drop m) = false := by
  cases hdrop : k.drop m with
  | nil => simp [isPfx]
  | cons x xs =>
      have hx := drop_cons_keyBit m k x xs hdrop
      simp [isPfx, hx]

/-- A matched edge path extended by a bit disagreeing with the key right
after it no longer matches. -/
theorem isPfx_append_neg (k p0 p2 : List Bool) (h0 : Nat) :
    isPfx (p0 ++ ((!keyBit k (h0 + p0.length)) :: p2)) (k.drop h0) = false := by
  rw [isPfx_append]
  cases hp0 : isPfx p0 (k.drop h0) with
  | false => simp
  | true =>
      have hd : (k.drop h0).drop p0.length = k.drop (h0 + p0.length) := by
        rw [List.drop_drop, Nat.add_comm]
      rw [hd, isPfx_neg_head]
      simp

theorem lastNode_cons_of_ne_nil (a : Node) (l : List Node) (h : l ≠ []) :
    lastNode (a :: l) = lastNode l := by
  cases l with
  | nil => exact absurd rfl h
  | cons b rest => rfl

theorem lastNode_isSome (a : Node) (l : List Node) :
    ∃ x, lastNode (a :: l) = some x := by
  induction l generalizing a with
  | nil => exact ⟨a, rfl⟩
  | cons b rest ih => exact ih b

/-! ### C5: commit stability -/

theorem commitSubtree_idem (Hb : Felt → Felt → Felt) (He : Felt → List Bool → Felt) :
    ∀ n : Node, commitSubtree Hb He (commitSubtree Hb He n).1 =
      ((commitSubtree Hb He n).1, []) := by
  intro n
  cases n with
  | unresolved h => rfl
  | leaf v => rfl
  | binary hs hgt l r =>
      cases hs with
      | some h => rfl
      | none => simp [commitSubtree]
  | edge hs hgt p c =>
      cases hs with
      | some h => rfl
      | none => simp [commitSubtree]

/-- C5: commit stability — for every tree, committing twice in a row returns
the same root hash both times, and the second commit performs no storage
upserts, because after the first commit every node at the top of each
recursion is clean and `commit_subtree` skips it. -/
theorem C5_commit_stable (Hb : Felt → Felt → Felt) (He : Felt → List Bool → Felt)
    (root : Node) :
    (commitMut Hb He (commitMut Hb He root).2.1).1 = (commitMut Hb He root).1 ∧
    (commitMut Hb He (commitMut Hb He root).2.1).2.2 = [] := by
  unfold commitMut
  rw [commitSubtree_idem]
  exact ⟨rfl, rfl⟩

/-! ### C6: insertion into an empty tree -/

/-- C6: inserting a non-zero value into an empty tree (root `Unresolved(0)`)
replaces the root with `Edge { hash := none, height := 0, path := k,
child := Leaf v }`. -/
theorem C6_insert_empty (stor : Storage) (maxH : Nat) (k : List Bool) (v : Felt)
    (fuel : Nat) (hv : v ≠ 0) :
    set stor maxH (.unresolved 0) k v fuel = some (.edge none 0 k (.leaf v)) := by
  simp [set, hv, Node.isEmptyNode]

theorem C6_insert_empty_witness :
    (7 : Felt) ≠ 0 ∧
    set nullStorage 2 (.unresolved 0) [true, false] 7 5 =
      some (.edge none 0 [true, false] (.leaf 7)) :=
  ⟨by decide, C6_insert_empty nullStorage 2 [true, false] 7 5 (by decide)⟩

/-! ### C7: merge_edges -/

/-- The outcome spec 4.5 prescribes for `merge_edges`, as a function of the
resolved child `rc`: fuse paths and reparent when `rc` is an edge, keep the
parent untouched otherwise. -/
def mergeSpec (p : List Bool) (c rc : Node) : List Bool × Node :=
  match rc with
  | .edge _ _ p2 c2 => (p ++ p2, c2)
  | _ => (p, c)

/-- C7: `merge_edges` on an edge `(hgt, p, c)` — an unresolved child is first
resolved at height `hgt + p.length`; if the (resolved or already-loaded)
child is an edge, the parent's path becomes `p ++ child.path` and its child
becomes the child's child; otherwise the parent is left entirely unchanged. -/
theorem C7_merge_edges (stor : Storage) (maxH hgt : Nat) (p : List Bool) (c rc : Node)
    (hres : (match c with
      | .unresolved hh => resolve stor maxH hh (hgt + p.length)
      | other => some other) = some rc) :
    mergeEdges stor maxH hgt p c = some (mergeSpec p c rc) := by
  simp only [mergeEdges]
  rw [hres]
  cases rc <;> rfl

theorem C7_merge_edges_witness :
    mergeEdges nullStorage 5 0 [true] (.edge none 1 [false] (.leaf 3)) =
      some ([true, false], .leaf 3) :=
  C7_merge_edges nullStorage 5 0 [true] (.edge none 1 [false] (.leaf 3))
    (.edge none 1 [false] (.leaf 3)) rfl

/-! ### The traversal terminus (C2) -/

/-- Shape of the last node a traversal returns: a leaf, or an edge whose path
diverges from the key. -/
def TerminusShape (k : List Bool) (last : Node) : Prop :=
  (∃ v, last = Node.leaf v) ∨
    ∃ hs hgt p c, last = Node.edge hs hgt p c ∧ pathMatches hgt p k = false

theorem traverseGo_last (stor : Storage) (maxH : Nat) (k : List Bool) :
    ∀ (fuel : Nat) (node : Node) (height : Nat) (n' : Node) (lst : List Node),
      traverseGo stor maxH k fuel node height = some (n', lst) →
      lst ≠ [] ∧ ∃ last, lastNode lst = some last ∧ TerminusShape k last := by
  intro fuel
  induction fuel with
  | zero => intro node height n' lst h; simp [traverseGo] at h
  | succ fuel ih =>
      intro node height n' lst h
      cases node with
      | unresolved hh =>
          simp only [traverseGo] at h
          cases hres : resolve stor maxH hh height with
          | none => rw [hres] at h; exact absurd h (by simp)
          | some n => rw [hres] at h; exact ih n height n' lst h
      | binary hs hgt l r =>
          simp only [traverseGo] at h
          by_cases hb : keyBit k hgt
          · rw [if_pos hb] at h
            cases hrec : traverseGo stor maxH k fuel r (height + 1) with
            | none => rw [hrec] at h; exact absurd h (by simp)
            | some pr =>
                obtain ⟨r', ns⟩ := pr
                rw [hrec] at h
                simp only [Option.some.injEq, Prod.mk.injEq] at h
                obtain ⟨hne, last, hlast, hshape⟩ := ih r (height + 1) r' ns hrec
                refine ⟨by simp [← h.2], last, ?_, hshape⟩
                rw [← h.2, lastNode_cons_of_ne_nil _ _ hne]
                exact hlast
          · rw [if_neg hb] at h
            cases hrec : traverseGo stor maxH k fuel l (height + 1) with
            | none => rw [hrec] at h; exact absurd h (by simp)
            | some pr =>
                obtain ⟨l', ns⟩ := pr
                rw [hrec] at h
                simp only [Option.some.injEq, Prod.mk.injEq] at h
                obtain ⟨hne, last, hlast, hshape⟩ := ih l (height + 1) l' ns hrec
                refine ⟨by simp [← h.2], last, ?_, hshape⟩
                rw [← h.2, lastNode_cons_of_ne_nil _ _ hne]
                exact hlast
      | edge hs hgt p c =>
          simp only [traverseGo] at h
          by_cases hm : pathMatches hgt p k
          · rw [if_pos hm] at h
            cases hrec : traverseGo stor maxH k fuel c (height + p.length) with
            | none => rw [hrec] at h; exact absurd h (by simp)
            | some pr =>
                obtain ⟨c', ns⟩ := pr
                rw [hrec] at h
                simp only [Option.some.injEq, Prod.mk.injEq] at h
                obtain ⟨hne, last, hlast, hshape⟩ := ih c (height + p.length) c' ns hrec
                refine ⟨by simp [← h.2], last, ?_, hshape⟩
                rw [← h.2, lastNode_cons_of_ne_nil _ _ hne]
                exact hlast
          · rw [if_neg hm] at h
            simp only [Option.some.injEq, Prod.mk.injEq] at h
            refine ⟨by simp [← h.2], Node.edge hs hgt p c, by simp [← h.2, lastNode], ?_⟩
            exact Or.inr ⟨hs, hgt, p, c, rfl, by simpa using hm⟩
      | leaf v =>
          simp only [traverseGo, Option.some.injEq, Prod.mk.injEq] at h
          refine ⟨by simp [← h.2], Node.leaf v, by simp [← h.2, lastNode], Or.inl ⟨v, rfl⟩⟩

/-- C2: traversal postcondition — on an empty tree (`Unresolved(0)` root) the
returned path is empty; on a non-empty tree it is non-empty and its last node
is either a leaf or an edge whose path diverges from the key, never a binary
or an unresolved node. -/
theorem C2_traverse_terminus (stor : Storage) (maxH : Nat) (root : Node)
    (k : List Bool) (fuel : Nat) (n' : Node) (lst : List Node)
    (h : traverse stor maxH root k fuel = some (n', lst)) :
    (root.isEmptyNode = true → lst = []) ∧
    (root.isEmptyNode = false →
      lst ≠ [] ∧ ∃ last, lastNode lst = some last ∧ TerminusShape k last) := by
  unfold traverse at h
  by_cases he : root.isEmptyNode
  · rw [if_pos he] at h
    simp only [Option.some.injEq, Prod.mk.injEq] at h
    exact ⟨fun _ => h.2.symm, fun hf => absurd he (by simp [hf])⟩
  · rw [if_neg he] at h
    exact ⟨fun ht => absurd ht (by simp [he]),
      fun _ => traverseGo_last stor maxH k fuel root 0 n' lst h⟩

theorem C2_traverse_terminus_witness :
    traverse nullStorage 1 (.edge none 0 [true] (.leaf 5)) [false] 5 =
      some (.edge none 0 [true] (.leaf 5), [.edge none 0 [true] (.leaf 5)]) ∧
    ((Node.edge none 0 [true] (.leaf 5)).isEmptyNode = true →
      ([Node.edge none 0 [true] (.leaf 5)] : List Node) = []) ∧
    ((Node.edge none 0 [true] (.leaf 5)).isEmptyNode = false →
      ([Node.edge none 0 [true] (.leaf 5)] : List Node) ≠ [] ∧
      ∃ last, lastNode [Node.edge none 0 [true] (.leaf 5)] = some last ∧
        TerminusShape [false] last) :=
  ⟨by decide,
    C2_traverse_terminus nullStorage 1 (.edge none 0 [true] (.leaf 5)) [false] 5
      (.edge none 0 [true] (.leaf 5)) [.edge none 0 [true] (.leaf 5)] (by decide)⟩

/-! One-step equations for `traverseGo` (avoiding recursive over-unfolding). -/

theorem traverseGo_unres (stor : Storage) (maxH : Nat) (k : List Bool) (fuel : Nat)
    (h : Felt) (height : Nat) :
    traverseGo stor maxH k (fuel + 1) (.unresolved h) height =
      (match resolve stor maxH h height with
        | none => none
        | some n => traverseGo stor maxH k fuel n height) := rfl

theorem traverseGo_binary (stor : Storage) (maxH : Nat) (k : List Bool) (fuel : Nat)
    (hs : Option Felt) (hgt : Nat) (l r : Node) (height : Nat) :
    traverseGo stor maxH k (fuel + 1) (.binary hs hgt l r) height =
      (if keyBit k hgt then
        match traverseGo stor maxH k fuel r (height + 1) with
        | none => none
        | some (r', ns) => some (.binary hs hgt l r', .binary hs hgt l r' :: ns)
      else
        match traverseGo stor maxH k fuel l (height + 1) with
        | none => none
        | some (l', ns) => some (.binary hs hgt l' r, .binary hs hgt l' r :: ns)) := rfl

theorem traverseGo_edge (stor : Storage) (maxH : Nat) (k : List Bool) (fuel : Nat)
    (hs : Option Felt) (hgt : Nat) (p : List Bool) (c : Node) (height : Nat) :
    traverseGo stor maxH k (fuel + 1) (.edge hs hgt p c) height =
      (if pathMatches hgt p k then
        match traverseGo stor maxH k fuel c (height + p.length) with
        | none => none
        | some (c', ns) => some (.edge hs hgt p c', .edge hs hgt p c' :: ns)
      else some (.edge hs hgt p c, [.edge hs hgt p c])) := rfl

theorem traverseGo_leaf (stor : Storage) (maxH : Nat) (k : List Bool) (fuel : Nat)
    (v : Felt) (height : Nat) :
    traverseGo stor maxH k (fuel + 1) (.leaf v) height =
      some (.leaf v, [.leaf v]) := rfl

/-- Fuel monotonicity for the traversal loop. -/
theorem traverseGo_mono (stor : Storage) (maxH : Nat) (k : List Bool) :
    ∀ (fuel : Nat) (node : Node) (height : Nat) (res : Node × List Node),
      traverseGo stor maxH k fuel node height = some res →
      traverseGo stor maxH k (fuel + 1) node height = some res := by
  intro fuel
  induction fuel with
  | zero => intro node height res h; simp [traverseGo] at h
  | succ fuel ih =>
      intro node height res h
      cases node with
      | unresolved hh =>
          rw [traverseGo_unres] at h ⊢
          cases hres : resolve stor maxH hh height with
          | none => rw [hres] at h; exact absurd h (by simp)
          | some n => rw [hres] at h; exact ih n height res h
      | binary hs hgt l r =>
          rw [traverseGo_binary] at h ⊢
          by_cases hb : keyBit k hgt
          · rw [if_pos hb] at h ⊢
            cases hrec : traverseGo stor maxH k fuel r (height + 1) with
            | none => rw [hrec] at h; exact absurd h (by simp)
            | some pr => rw [hrec] at h; rw [ih r (height + 1) pr hrec]; exact h
          · rw [if_neg hb] at h ⊢
            cases hrec : traverseGo stor maxH k fuel l (height + 1) with
            | none => rw [hrec] at h; exact absurd h (by simp)
            | some pr => rw [hrec] at h; rw [ih l (height + 1) pr hrec]; exact h
      | edge hs hgt p c =>
          rw [traverseGo_edge] at h ⊢
          by_cases hm : pathMatches hgt p k
          · rw [if_pos hm] at h ⊢
            cases hrec : traverseGo stor maxH k fuel c (height + p.length) with
            | none => rw [hrec] at h; exact absurd h (by simp)
            | some pr => rw [hrec] at h; rw [ih c (height + p.length) pr hrec]; exact h
          · rw [if_neg hm] at h ⊢; exact h
      | leaf v => rw [traverseGo_leaf] at h ⊢; exact h

theorem traverseGo_mono_le (stor : Storage) (maxH : Nat) (k : List Bool)
    (fuel fuel' : Nat) (node : Node) (height : Nat) (res : Node × List Node)
    (hle : fuel ≤ fuel') (h : traverseGo stor maxH k fuel node height = some res) :
    traverseGo stor maxH k fuel' node height = some res := by
  induction fuel' with
  | zero => cases Nat.le_zero.mp hle; exact h
  | succ f ih =>
      rcases Nat.lt_or_ge fuel (f + 1) with hlt | hge
      · exact traverseGo_mono stor maxH k f node height res (ih (Nat.lt_succ_iff.mp hlt))
      · cases Nat.le_antisymm hle hge; exact h

/-! ### C9: proof shape -/

/-- The path nodes a proof is generated from: the traversal path with a
trailing leaf removed. -/
def proofCore (ns : List Node) : List Node :=
  match lastNode ns with
  | some (.leaf _) => ns.dropLast
  | _ => ns

/-- A path node and its proof record agree: a binary node yields its two
child hashes, an edge node yields its path and child hash; a leaf or an
unresolved node has no proof record at all. -/
def ProofMatches (n : Node) (r : ProofNode) : Prop :=
  match n, r with
  | .binary _ _ l rr, .binary lh rh => l.hashOf = some lh ∧ rr.hashOf = some rh
  | .edge _ _ p c, .edge p' ch => p' = p ∧ c.hashOf = some ch
  | _, _ => False

theorem toProofNode_matches (n : Node) (r : ProofNode) (h : toProofNode n = some r) :
    ProofMatches n r := by
  cases n with
  | unresolved hh => simp [toProofNode] at h
  | leaf v => simp [toProofNode] at h
  | binary hs hgt l rr =>
      simp only [toProofNode] at h
      cases hl : l.hashOf with
      | none => rw [hl] at h; cases rr.hashOf <;> simp at h
      | some lh =>
          cases hr : rr.hashOf with
          | none => rw [hl, hr] at h; simp at h
          | some rh =>
              rw [hl, hr] at h
              simp only [Option.some.injEq] at h
              subst h
              exact ⟨hl, hr⟩
  | edge hs hgt p c =>
      simp only [toProofNode] at h
      cases hc : c.hashOf with
      | none => rw [hc] at h; simp at h
      | some ch =>
          rw [hc] at h
          simp only [Option.map_some', Option.some.injEq] at h
          subst h
          exact ⟨rfl, hc⟩

theorem mapOpt_spec (f : α → Option β) :
    ∀ (l : List α) (r : List β), mapOpt f l = some r →
      r.length = l.length ∧
      ∀ (i : Nat) (x : α), l.get? i = some x → ∃ y, r.get? i = some y ∧ f x = some y := by
  intro l
  induction l with
  | nil =>
      intro r h
      simp only [mapOpt, Option.some.injEq] at h
      subst h
      exact ⟨rfl, by intro i x hx; simp at hx⟩
  | cons a as ih =>
      intro r h
      simp only [mapOpt] at h
      cases hfa : f a with
      | none => rw [hfa] at h; simp at h
      | some y =>
          rw [hfa] at h
          cases hrec : mapOpt f as with
          | none => rw [hrec] at h; simp at h
          | some ys =>
              rw [hrec] at h
              simp only [Option.some.injEq] at h
              subst h
              obtain ⟨hlen, hget⟩ := ih ys hrec
              refine ⟨by simp [hlen], ?_⟩
              intro i x hx
              cases i with
              | zero =>
                  simp only [List.get?] at hx ⊢
                  cases hx
                  exact ⟨y, rfl, hfa⟩
              | succ i =>
                  simp only [List.get?] at hx ⊢
                  exact hget i x hx

/-- `mapOpt toProofNode` establishes the index-wise correspondence. -/
theorem mapOpt_proof_spec (core : List Node) (pf : List ProofNode)
    (hpf : mapOpt toProofNode core = some pf) :
    pf.length = core.length ∧
    ∀ (i : Nat) (x : Node), core.get? i = some x →
      ∃ y, pf.get? i = some y ∧ ProofMatches x y := by
  obtain ⟨hlen, hget⟩ := mapOpt_spec toProofNode core pf hpf
  refine ⟨hlen, ?_⟩
  intro i x hx
  obtain ⟨y, hy, hfy⟩ := hget i x hx
  exact ⟨y, hy, toProofNode_matches x y hfy⟩

/-- C9: proof shape — `get_proof` on an empty tree returns the empty list;
otherwise it returns the traversal path root-first with the trailing leaf (if
any) removed, each remaining node converted to its binary record (both child
hashes) or edge record (path and child hash); no leaf or unresolved record
ever appears (a leaf or unresolved path node would have no record at all). -/
theorem C9_proof_shape (stor : Storage) (maxH : Nat) (root : Node) (k : List Bool)
    (fuel : Nat) (n' : Node) (ns : List Node)
    (h : traverse stor maxH root k fuel = some (n', ns)) :
    (ns = [] → getProof stor maxH root k fuel = some []) ∧
    ∀ pf, getProof stor maxH root k fuel = some pf →
      pf.length = (proofCore ns).length ∧
      ∀ (i : Nat) (x : Node), (proofCore ns).get? i = some x →
        ∃ y, pf.get? i = some y ∧ ProofMatches x y := by
  cases hlast : lastNode ns with
  | none =>
      have hns : ns = [] := by
        cases ns with
        | nil => rfl
        | cons a l =>
            obtain ⟨x, hx⟩ := lastNode_isSome a l
            rw [hx] at hlast
            cases hlast
      subst hns
      have hgp : getProof stor maxH root k fuel = some [] := by
        simp only [getProof, h, lastNode]
      refine ⟨fun _ => hgp, ?_⟩
      intro pf hpf
      rw [hgp] at hpf
      cases hpf
      exact ⟨rfl, by intro i x hx; simp [proofCore, lastNode] at hx⟩
  | some last =>
      have hne : ns ≠ [] := by
        intro hns
        subst hns
        simp [lastNode] at hlast
      refine ⟨fun hns => absurd hns hne, ?_⟩
      intro pf hpf
      cases last with
      | leaf v =>
          have hcore : proofCore ns = ns.dropLast := by
            unfold proofCore
            rw [hlast]
          have hpf2 : mapOpt toProofNode ns.dropLast = some pf := by
            simpa only [getProof, h, hlast] using hpf
          rw [hcore]
          exact mapOpt_proof_spec ns.dropLast pf hpf2
      | unresolved hh =>
          have hcore : proofCore ns = ns := by
            unfold proofCore
            rw [hlast]
          have hpf2 : mapOpt toProofNode ns = some pf := by
            simpa only [getProof, h, hlast] using hpf
          rw [hcore]
          exact mapOpt_proof_spec ns pf hpf2
      | binary hs hgt l r =>
          have hcore : proofCore ns = ns := by
            unfold proofCore
            rw [hlast]
          have hpf2 : mapOpt toProofNode ns = some pf := by
            simpa only [getProof, h, hlast] using hpf
          rw [hcore]
          exact mapOpt_proof_spec ns pf hpf2
      | edge hs hgt p c =>
          have hcore : proofCore ns = ns := by
            unfold proofCore
            rw [hlast]
          have hpf2 : mapOpt toProofNode ns = some pf := by
            simpa only [getProof, h, hlast] using hpf
          rw [hcore]
          exact mapOpt_proof_spec ns pf hpf2

theorem C9_proof_shape_witness :
    traverse nullStorage 1 (.edge (some 20) 0 [true] (.leaf 7)) [true] 5 =
      some (.edge (some 20) 0 [true] (.leaf 7),
        [.edge (some 20) 0 [true] (.leaf 7), .leaf 7]) ∧
    (([Node.edge (some 20) 0 [true] (.leaf 7), Node.leaf 7] : List Node) = [] →
      getProof nullStorage 1 (.edge (some 20) 0 [true] (.leaf 7)) [true] 5 = some []) ∧
    ∀ pf, getProof nullStorage 1 (.edge (some 20) 0 [true] (.leaf 7)) [true] 5 = some pf →
      pf.length = (proofCore [Node.edge (some 20) 0 [true] (.leaf 7), Node.leaf 7]).length ∧
      ∀ (i : Nat) (x : Node),
        (proofCore [Node.edge (some 20) 0 [true] (.leaf 7), Node.leaf 7]).get? i = some x →
        ∃ y, pf.get? i = some y ∧ ProofMatches x y :=
  ⟨by decide,
    C9_proof_shape nullStorage 1 (.edge (some 20) 0 [true] (.leaf 7)) [true] 5
      (.edge (some 20) 0 [true] (.leaf 7))
      [Node.edge (some 20) 0 [true] (.leaf 7), Node.leaf 7] (by decide)⟩

/-! ### C10: dfs never overwrites a handle -/

theorem resolveH_extends (stor : Storage) (maxH : Nat) (h : Felt) (height : Nat)
    (heap heap' : Heap) (n' : HNode)
    (hres : resolveH stor maxH h height heap = some (heap', n')) :
    ∃ ext, heap' = heap ++ ext := by
  unfold resolveH at hres
  by_cases hh : height = maxH
  · rw [if_pos hh] at hres
    simp only [Option.some.injEq, Prod.mk.injEq] at hres
    exact ⟨[], by simp [← hres.1]⟩
  · rw [if_neg hh] at hres
    cases hstor : stor h with
    | none => rw [hstor] at hres; cases hres
    | some pn =>
        rw [hstor] at hres
        cases pn with
        | binary l r =>
            simp only [Option.some.injEq, Prod.mk.injEq] at hres
            exact ⟨[.unresolved l, .unresolved r], hres.1.symm⟩
        | edge p c =>
            simp only [Option.some.injEq, Prod.mk.injEq] at hres
            exact ⟨[.unresolved c], hres.1.symm⟩
        | leaf => cases hres

/-- C10: `dfs` does not mutate the tree it walks — a non-zero unresolved node
is resolved into a freshly allocated handle that is pushed for descent, and
every handle that existed before the call still holds exactly the node it
held before (the final heap is the initial heap plus fresh allocations);
`traverse`, by contrast, rewrites a resolved handle in place, as the second
conjunct exhibits on a one-cell heap whose only cell is overwritten. -/
theorem C10_dfs_no_mutation :
    (∀ (X : Type) (stor : Storage) (maxH : Nat) (f : HNode → List Bool → VRet X)
      (fuel : Nat) (heap : Heap) (stack : List (Nat × List Bool))
      (log : List (HNode × List Bool))
      (out : Heap × Option X × List (HNode × List Bool)),
      dfsH stor maxH f fuel heap stack log = some out →
      ∃ ext, out.1 = heap ++ ext) ∧
    (traverseHGo nullStorage 0 [] 2 [.unresolved 5] 0 0 = some ([.leaf 5], [0]) ∧
      ∀ ext : Heap, ([HNode.leaf 5] : Heap) ≠ [HNode.unresolved 5] ++ ext) := by
  constructor
  · intro X stor maxH f fuel
    induction fuel with
    | zero => intro heap stack log out h; simp [dfsH] at h
    | succ fuel ih =>
        intro heap stack log out h
        cases stack with
        | nil =>
            simp only [dfsH, Option.some.injEq] at h
            exact ⟨[], by simp [← h]⟩
        | cons top rest =>
            obtain ⟨a, p⟩ := top
            simp only [dfsH] at h
            cases hget : heap.get? a with
            | none =>
                simp only [hget] at h
                exact absurd h (by simp)
            | some n =>
                cases n with
                | unresolved hh =>
                    simp only [hget] at h
                    by_cases hz : hh = 0
                    · rw [if_pos hz] at h
                      exact ih heap rest log out h
                    · rw [if_neg hz] at h
                      cases hres : resolveH stor maxH hh p.length heap with
                      | none =>
                          simp only [hres] at h
                          exact absurd h (by simp)
                      | some pr =>
                          obtain ⟨heapR, n'⟩ := pr
                          simp only [hres] at h
                          obtain ⟨ext1, hext1⟩ :=
                            resolveH_extends stor maxH hh p.length heap heapR n' hres
                          obtain ⟨ext2, hext2⟩ := ih (heapR ++ [n']) _ log out h
                          refine ⟨ext1 ++ [n'] ++ ext2, ?_⟩
                          rw [hext2, hext1]
                          simp [List.append_assoc]
                | leaf v =>
                    simp only [hget] at h
                    cases hf : f (.leaf v) p with
                    | breakWith x =>
                        simp only [hf, Option.some.injEq] at h
                        exact ⟨[], by simp [← h]⟩
                    | stopSubtree => simp only [hf] at h; exact ih heap rest _ out h
                    | continueDeeper => simp only [hf] at h; exact ih heap rest _ out h
                | binary hs hgt l r =>
                    simp only [hget] at h
                    cases hf : f (.binary hs hgt l r) p with
                    | breakWith x =>
                        simp only [hf, Option.some.injEq] at h
                        exact ⟨[], by simp [← h]⟩
                    | stopSubtree => simp only [hf] at h; exact ih heap rest _ out h
                    | continueDeeper => simp only [hf] at h; exact ih heap _ _ out h
                | edge hs hgt ep c =>
                    simp only [hget] at h
                    cases hf : f (.edge hs hgt ep c) p with
                    | breakWith x =>
                        simp only [hf, Option.some.injEq] at h
                        exact ⟨[], by simp [← h]⟩
                    | stopSubtree => simp only [hf] at h; exact ih heap rest _ out h
                    | continueDeeper => simp only [hf] at h; exact ih heap _ _ out h
  · refine ⟨by decide, ?_⟩
    intro ext hext
    simp at hext

theorem C10_dfs_no_mutation_witness :
    ∃ ext, ([HNode.leaf 7] : Heap) = [HNode.leaf 7] ++ ext :=
  C10_dfs_no_mutation.1 Unit nullStorage 0 (fun _ _ => VRet.continueDeeper) 3
    [HNode.leaf 7] [(0, [])] [] ([HNode.leaf 7], none, [(HNode.leaf 7, [])])
    (by decide)

/-! ### C3: which nodes dfs hands to the visitor -/

/-- Storage for the C3 run: hash 5 is a binary node over hashes 3 and 0. -/
def storC3 : Storage := fun h => if h == 5 then some (.binary 3 0) else none

/-- Whether a heap node is unresolved. -/
def HNode.isUnres : HNode → Bool
  | .unresolved _ => true
  | _ => false

/-- C3: the claim says `dfs` passes every non-zero `Unresolved(h)` node to the
visitor and resolves it only after the visitor returns `ContinueDeeper`.  The
code does not: its zero test binds a pattern variable, so it matches every
unresolved node, the visitor is never consulted for them, and resolution is
unconditional.  Concretely, walking a tree whose root handle holds
`Unresolved(5)` (non-zero, resolving to a binary over `Unresolved(3)` and
`Unresolved(0)`) logs only the resolved binary node and the leaf for hash 3:
no unresolved node ever reaches the visitor. -/
theorem C3_dfs_visitor_skips_unresolved :
    dfsH storC3 1 (fun _ _ => (VRet.continueDeeper : VRet Unit)) 20
      [.unresolved 5] [(0, [])] [] =
      some ([.unresolved 5, .unresolved 3, .unresolved 0, .binary (some 5) 0 1 2,
          .leaf 3], none,
        [(.binary (some 5) 0 1 2, []), (.leaf 3, [false])]) ∧
    ([((HNode.binary (some 5) 0 1 2 : HNode), ([] : List Bool)),
        (.leaf 3, [false])].all fun e => !e.1.isUnres) = true :=
  ⟨by decide, by decide⟩

/-! ### C1: set / get round trip — the insertion half

After `set` rewrites the tree, traversing the same key again retraces the
rewritten path without further resolution and ends at the new leaf. -/

/-- The new-leaf branch a split produces below the binary node at height
`bh`: a bare leaf when the key is exhausted, else an edge to it. -/
def mkNewBranch (k : List Bool) (v : Felt) (bh : Nat) : Node :=
  if (k.drop (bh + 1)).isEmpty then .leaf v
  else .edge none (bh + 1) (k.drop (bh + 1)) (.leaf v)

/-- The binary node a split produces at height `bh`, with the surviving old
branch `ob` on the side away from the key. -/
def mkBranch (k : List Bool) (v : Felt) (bh : Nat) (ob : Node) : Node :=
  if keyBit k bh then .binary none bh ob (mkNewBranch k v bh)
  else .binary none bh (mkNewBranch k v bh) ob

/-- `splitEdge` decomposed through the helpers. -/
theorem splitEdge_eq (k : List Bool) (v : Felt) (hgt : Nat) (p : List Bool) (c : Node) :
    splitEdge k v hgt p c =
      (if (commonPrefix p (k.drop hgt)).isEmpty then
        mkBranch k v (hgt + (commonPrefix p (k.drop hgt)).length)
          (if (p.drop ((commonPrefix p (k.drop hgt)).length + 1)).isEmpty then c
            else .edge none (hgt + (commonPrefix p (k.drop hgt)).length + 1)
              (p.drop ((commonPrefix p (k.drop hgt)).length + 1)) c)
      else
        .edge none hgt (commonPrefix p (k.drop hgt))
          (mkBranch k v (hgt + (commonPrefix p (k.drop hgt)).length)
            (if (p.drop ((commonPrefix p (k.drop hgt)).length + 1)).isEmpty then c
              else .edge none (hgt + (commonPrefix p (k.drop hgt)).length + 1)
                (p.drop ((commonPrefix p (k.drop hgt)).length + 1)) c))) := rfl

theorem mkNewBranch_retrace (stor : Storage) (maxH : Nat) (k : List Bool) (v : Felt)
    (bh fuel height : Nat) :
    ∃ lst,
      traverseGo stor maxH k (fuel + 2) (mkNewBranch k v bh) height =
        some (mkNewBranch k v bh, lst) ∧
      lst ≠ [] ∧ lastNode lst = some (.leaf v) := by
  unfold mkNewBranch
  by_cases hnp : (k.drop (bh + 1)).isEmpty
  · rw [if_pos hnp]
    exact ⟨[.leaf v], traverseGo_leaf stor maxH k (fuel + 1) v height, by simp, rfl⟩
  · rw [if_neg hnp]
    have hm : pathMatches (bh + 1) (k.drop (bh + 1)) k = true := isPfx_refl _
    refine ⟨[.edge none (bh + 1) (k.drop (bh + 1)) (.leaf v), .leaf v], ?_, by simp, rfl⟩
    rw [traverseGo_edge, if_pos hm,
      traverseGo_leaf stor maxH k fuel v (height + (k.drop (bh + 1)).length)]

theorem mkBranch_retrace (stor : Storage) (maxH : Nat) (k : List Bool) (v : Felt)
    (bh : Nat) (ob : Node) (fuel height : Nat) :
    ∃ lst,
      traverseGo stor maxH k (fuel + 3) (mkBranch k v bh ob) height =
        some (mkBranch k v bh ob, lst) ∧
      lst ≠ [] ∧ lastNode lst = some (.leaf v) := by
  obtain ⟨lst, hl, hne, hlast⟩ := mkNewBranch_retrace stor maxH k v bh fuel (height + 1)
  unfold mkBranch
  by_cases hd : keyBit k bh
  · rw [if_pos hd]
    refine ⟨Node.binary none bh ob (mkNewBranch k v bh) :: lst, ?_, by simp, ?_⟩
    · rw [traverseGo_binary, if_pos hd, hl]
    · rw [lastNode_cons_of_ne_nil _ _ hne]
      exact hlast
  · rw [if_neg hd]
    refine ⟨Node.binary none bh (mkNewBranch k v bh) ob :: lst, ?_, by simp, ?_⟩
    · rw [traverseGo_binary, if_neg hd, hl]
    · rw [lastNode_cons_of_ne_nil _ _ hne]
      exact hlast

theorem splitEdge_retrace (stor : Storage) (maxH : Nat) (k : List Bool) (v : Felt)
    (hgt : Nat) (p : List Bool) (c : Node) (fuel height : Nat) :
    ∃ lst,
      traverseGo stor maxH k (fuel + 4) (splitEdge k v hgt p c) height =
        some (splitEdge k v hgt p c, lst) ∧
      lst ≠ [] ∧ lastNode lst = some (.leaf v) := by
  rw [splitEdge_eq]
  by_cases hce : (commonPrefix p (k.drop hgt)).isEmpty
  · rw [if_pos hce]
    exact mkBranch_retrace stor maxH k v _ _ (fuel + 1) height
  · rw [if_neg hce]
    have hm : pathMatches hgt (commonPrefix p (k.drop hgt)) k = true :=
      commonPrefix_isPfx p (k.drop hgt)
    obtain ⟨lst, hl, hne, hlast⟩ :=
      mkBranch_retrace stor maxH k v (hgt + (commonPrefix p (k.drop hgt)).length)
        (if (p.drop ((commonPrefix p (k.drop hgt)).length + 1)).isEmpty then c
          else .edge none (hgt + (commonPrefix p (k.drop hgt)).length + 1)
            (p.drop ((commonPrefix p (k.drop hgt)).length + 1)) c)
        fuel (height + (commonPrefix p (k.drop hgt)).length)
    refine ⟨Node.edge none hgt (commonPrefix p (k.drop hgt))
        (mkBranch k v (hgt + (commonPrefix p (k.drop hgt)).length)
          (if (p.drop ((commonPrefix p (k.drop hgt)).length + 1)).isEmpty then c
            else .edge none (hgt + (commonPrefix p (k.drop hgt)).length + 1)
              (p.drop ((commonPrefix p (k.drop hgt)).length + 1)) c)) :: lst, ?_, by simp, ?_⟩
    · rw [traverseGo_edge, if_pos hm, hl]
    · rw [lastNode_cons_of_ne_nil _ _ hne]
      exact hlast

/-! One-step equations for `setGo`. -/

theorem setGo_unres (stor : Storage) (maxH : Nat) (k : List Bool) (v : Felt)
    (fuel : Nat) (h : Felt) (height : Nat) :
    setGo stor maxH k v (fuel + 1) (.unresolved h) height =
      (match resolve stor maxH h height with
        | none => none
        | some n => setGo stor maxH k v fuel n height) := rfl

theorem setGo_binary (stor : Storage) (maxH : Nat) (k : List Bool) (v : Felt)
    (fuel : Nat) (hs : Option Felt) (hgt : Nat) (l r : Node) (height : Nat) :
    setGo stor maxH k v (fuel + 1) (.binary hs hgt l r) height =
      (if keyBit k hgt then
        match setGo stor maxH k v fuel r (height + 1) with
        | none => none
        | some r' => some (.binary none hgt l r')
      else
        match setGo stor maxH k v fuel l (height + 1) with
        | none => none
        | some l' => some (.binary none hgt l' r)) := rfl

theorem setGo_edge (stor : Storage) (maxH : Nat) (k : List Bool) (v : Felt)
    (fuel : Nat) (hs : Option Felt) (hgt : Nat) (p : List Bool) (c : Node)
    (height : Nat) :
    setGo stor maxH k v (fuel + 1) (.edge hs hgt p c) height =
      (if pathMatches hgt p k then
        match setGo stor maxH k v fuel c (height + p.length) with
        | none => none
        | some c' => some (.edge none hgt p c')
      else some (splitEdge k v hgt p c)) := rfl

theorem setGo_leaf (stor : Storage) (maxH : Nat) (k : List Bool) (v : Felt)
    (fuel : Nat) (w : Felt) (height : Nat) :
    setGo stor maxH k v (fuel + 1) (.leaf w) height = some (.leaf v) := rfl

/-- After `setGo` rewrites a subtree, traversing the same key through the
result retraces it (no further resolution, same rebuilt subtree) and ends at
the new leaf. -/
theorem setGo_retrace (stor : Storage) (maxH : Nat) (k : List Bool) (v : Felt) :
    ∀ (fuel : Nat) (node : Node) (height : Nat) (n' : Node),
      setGo stor maxH k v fuel node height = some n' →
      (∀ hh, n' ≠ .unresolved hh) ∧
      ∃ lst, traverseGo stor maxH k (fuel + 4) n' height = some (n', lst) ∧
        lst ≠ [] ∧ lastNode lst = some (.leaf v) := by
  intro fuel
  induction fuel with
  | zero => intro node height n' h; simp [setGo] at h
  | succ fuel ih =>
      intro node height n' h
      cases node with
      | unresolved hh =>
          rw [setGo_unres] at h
          cases hres : resolve stor maxH hh height with
          | none => rw [hres] at h; exact absurd h (by simp)
          | some n =>
              rw [hres] at h
              obtain ⟨hnu, lst, hl, hne, hlast⟩ := ih n height n' h
              exact ⟨hnu, lst, traverseGo_mono stor maxH k (fuel + 4) n' height _ hl,
                hne, hlast⟩
      | binary hs hgt l r =>
          rw [setGo_binary] at h
          by_cases hd : keyBit k hgt
          · rw [if_pos hd] at h
            cases hrec : setGo stor maxH k v fuel r (height + 1) with
            | none => rw [hrec] at h; exact absurd h (by simp)
            | some r' =>
                rw [hrec] at h
                simp only [Option.some.injEq] at h
                subst h
                obtain ⟨hnu, lst, hl, hne, hlast⟩ := ih r (height + 1) r' hrec
                refine ⟨fun hh hcon => Node.noConfusion hcon, ?_⟩
                refine ⟨Node.binary none hgt l r' :: lst, ?_, by simp, ?_⟩
                · rw [traverseGo_binary, if_pos hd, hl]
                · rw [lastNode_cons_of_ne_nil _ _ hne]
                  exact hlast
          · rw [if_neg hd] at h
            cases hrec : setGo stor maxH k v fuel l (height + 1) with
            | none => rw [hrec] at h; exact absurd h (by simp)
            | some l' =>
                rw [hrec] at h
                simp only [Option.some.injEq] at h
                subst h
                obtain ⟨hnu, lst, hl, hne, hlast⟩ := ih l (height + 1) l' hrec
                refine ⟨fun hh hcon => Node.noConfusion hcon, ?_⟩
                refine ⟨Node.binary none hgt l' r :: lst, ?_, by simp, ?_⟩
                · rw [traverseGo_binary, if_neg hd, hl]
                · rw [lastNode_cons_of_ne_nil _ _ hne]
                  exact hlast
      | edge hs hgt p c =>
          rw [setGo_edge] at h
          by_cases hm : pathMatches hgt p k
          · rw [if_pos hm] at h
            cases hrec : setGo stor maxH k v fuel c (height + p.length) with
            | none => rw [hrec] at h; exact absurd h (by simp)
            | some c' =>
                rw [hrec] at h
                simp only [Option.some.injEq] at h
                subst h
                obtain ⟨hnu, lst, hl, hne, hlast⟩ := ih c (height + p.length) c' hrec
                refine ⟨fun hh hcon => Node.noConfusion hcon, ?_⟩
                refine ⟨Node.edge none hgt p c' :: lst, ?_, by simp, ?_⟩
                · rw [traverseGo_edge, if_pos hm, hl]
                · rw [lastNode_cons_of_ne_nil _ _ hne]
                  exact hlast
          · rw [if_neg hm] at h
            simp only [Option.some.injEq] at h
            subst h
            refine ⟨?_, splitEdge_retrace stor maxH k v hgt p c (fuel + 1) height⟩
            intro hh hcon
            rw [splitEdge_eq] at hcon
            by_cases hce : (commonPrefix p (k.drop hgt)).isEmpty
            · rw [if_pos hce] at hcon
              unfold mkBranch at hcon
              by_cases hd : keyBit k (hgt + (commonPrefix p (k.drop hgt)).length)
              · rw [if_pos hd] at hcon; cases hcon
              · rw [if_neg hd] at hcon; cases hcon
            · rw [if_neg hce] at hcon; cases hcon
      | leaf w =>
          rw [setGo_leaf] at h
          simp only [Option.some.injEq] at h
          subst h
          exact ⟨fun hh hcon => Node.noConfusion hcon,
            [.leaf v], traverseGo_leaf stor maxH k (fuel + 4) v height, by simp, rfl⟩

theorem not_unres_not_empty (n : Node) (h : ∀ hh, n ≠ .unresolved hh) :
    n.isEmptyNode = false := by
  cases n with
  | unresolved hh => exact absurd rfl (h hh)
  | leaf v => rfl
  | binary hs hgt l r => rfl
  | edge hs hgt p c => rfl

/-- The insertion half of the round trip. -/
theorem set_then_get (stor : Storage) (maxH : Nat) (root : Node) (k : List Bool)
    (v : Felt) (fuel : Nat) (n' : Node) (hv : v ≠ 0)
    (hset : set stor maxH root k v fuel = some n') :
    get stor maxH n' k (fuel + 4) = some (some v) := by
  unfold set at hset
  rw [if_neg hv] at hset
  by_cases he : root.isEmptyNode
  · rw [if_pos he] at hset
    simp only [Option.some.injEq] at hset
    subst hset
    have hm : pathMatches 0 k k = true := isPfx_refl k
    have htrav : traverseGo stor maxH k (fuel + 4) (.edge none 0 k (.leaf v)) 0 =
        some (.edge none 0 k (.leaf v), [.edge none 0 k (.leaf v), .leaf v]) := by
      have : fuel + 4 = (fuel + 3) + 1 := rfl
      rw [this, traverseGo_edge, if_pos hm,
        traverseGo_leaf stor maxH k (fuel + 2) v (0 + k.length)]
    unfold get traverse
    rw [not_unres_not_empty _ (by intro hh hcon; cases hcon)]
    simp only [Bool.false_eq_true, if_false, htrav, Option.map_some']
    rw [show lastNode [Node.edge none 0 k (.leaf v), .leaf v] = some (.leaf v) from rfl]
    simp [hv]
  · rw [if_neg he] at hset
    obtain ⟨hnu, lst, hl, hne, hlast⟩ := setGo_retrace stor maxH k v fuel root 0 n' hset
    unfold get traverse
    rw [not_unres_not_empty _ hnu]
    simp only [Bool.false_eq_true, if_false, hl, Option.map_some']
    rw [hlast]
    simp [hv]

/-! ### C1: set / get round trip — the deletion half -/

/-! One-step equations for `deleteGo`. -/

theorem deleteGo_unres (stor : Storage) (maxH : Nat) (k : List Bool) (fuel : Nat)
    (h : Felt) (height : Nat) :
    deleteGo stor maxH k (fuel + 1) (.unresolved h) height =
      (match resolve stor maxH h height with
        | none => none
        | some n => deleteGo stor maxH k fuel n height) := rfl

theorem deleteGo_leafEq (stor : Storage) (maxH : Nat) (k : List Bool) (fuel : Nat)
    (v : Felt) (height : Nat) :
    deleteGo stor maxH k (fuel + 1) (.leaf v) height = some .noBinary := rfl

theorem deleteGo_binary (stor : Storage) (maxH : Nat) (k : List Bool) (fuel : Nat)
    (hs : Option Felt) (hgt : Nat) (l r : Node) (height : Nat) :
    deleteGo stor maxH k (fuel + 1) (.binary hs hgt l r) height =
      (match deleteGo stor maxH k fuel (if keyBit k hgt then r else l) (height + 1) with
        | none => none
        | some (.absent c') =>
            some (.absent (if keyBit k hgt then .binary hs hgt l c'
              else .binary hs hgt c' r))
        | some .noBinary =>
            match mergeEdges stor maxH hgt [!keyBit k hgt]
                (if keyBit k hgt then l else r) with
            | none => none
            | some (p1, c1) => some (.spliced hgt p1 c1)
        | some (.spliced h2 p2 c2) =>
            some (.kept (if keyBit k hgt then .binary none hgt l (.edge none h2 p2 c2)
              else .binary none hgt (.edge none h2 p2 c2) r))
        | some (.kept c') =>
            some (.kept (if keyBit k hgt then .binary none hgt l c'
              else .binary none hgt c' r))) := rfl

theorem deleteGo_edge (stor : Storage) (maxH : Nat) (k : List Bool) (fuel : Nat)
    (hs : Option Felt) (hgt : Nat) (p : List Bool) (c : Node) (height : Nat) :
    deleteGo stor maxH k (fuel + 1) (.edge hs hgt p c) height =
      (if pathMatches hgt p k then
        match deleteGo stor maxH k fuel c (height + p.length) with
        | none => none
        | some (.absent c') => some (.absent (.edge hs hgt p c'))
        | some .noBinary => some .noBinary
        | some (.spliced _ p2 c2) => some (.kept (.edge none hgt (p ++ p2) c2))
        | some (.kept c') => some (.kept (.edge none hgt p c'))
      else some (.absent (.edge hs hgt p c))) := rfl

/-! Facts about the heights invariant. -/

theorem heightsOk_binary (k : List Bool) (hs : Option Felt) (hgt : Nat) (l r : Node)
    (h : Nat) (hOk : heightsOkAlong k (.binary hs hgt l r) h = true) :
    hgt = h ∧ heightsOkAlong k (if keyBit k hgt then r else l) (h + 1) = true := by
  simp only [heightsOkAlong, Bool.and_eq_true, beq_iff_eq] at hOk
  refine ⟨hOk.1, ?_⟩
  by_cases hd : keyBit k hgt
  · rw [if_pos hd]
    rw [if_pos hd] at hOk
    exact hOk.2
  · rw [if_neg hd]
    rw [if_neg hd] at hOk
    exact hOk.2

theorem heightsOk_edge (k : List Bool) (hs : Option Felt) (hgt : Nat) (p : List Bool)
    (c : Node) (h : Nat) (hOk : heightsOkAlong k (.edge hs hgt p c) h = true) :
    hgt = h ∧ (pathMatches hgt p k = true → heightsOkAlong k c (h + p.length) = true) := by
  simp only [heightsOkAlong, Bool.and_eq_true, beq_iff_eq] at hOk
  refine ⟨hOk.1, fun hm => ?_⟩
  have h2 := hOk.2
  rw [hm] at h2
  simpa using h2

theorem resolve_heightsOk (stor : Storage) (maxH : Nat) (k : List Bool) (hh : Felt)
    (height : Nat) (n : Node) (hres : resolve stor maxH hh height = some n) :
    heightsOkAlong k n height = true := by
  unfold resolve at hres
  by_cases hmx : height = maxH
  · rw [if_pos hmx] at hres
    simp only [Option.some.injEq] at hres
    subst hres
    rfl
  · rw [if_neg hmx] at hres
    cases hstor : stor hh with
    | none => rw [hstor] at hres; cases hres
    | some pn =>
        rw [hstor] at hres
        cases pn with
        | binary l r =>
            simp only [Option.some.injEq] at hres
            subst hres
            simp [heightsOkAlong]
        | edge p c =>
            simp only [Option.some.injEq] at hres
            subst hres
            simp [heightsOkAlong]
        | leaf => cases hres

theorem mergeEdges_cons (stor : Storage) (maxH : Nat) (hgt : Nat) (b : Bool)
    (p : List Bool) (c : Node) (p1 : List Bool) (c1 : Node)
    (h : mergeEdges stor maxH hgt (b :: p) c = some (p1, c1)) :
    ∃ tail, p1 = b :: tail := by
  simp only [mergeEdges] at h
  cases hres : (match c with
      | .unresolved hh => resolve stor maxH hh (hgt + (b :: p).length)
      | other => some other) with
  | none => rw [hres] at h; cases h
  | some rc =>
      rw [hres] at h
      cases rc with
      | edge hs2 hgt2 p2 c2 =>
          simp only [Option.some.injEq, Prod.mk.injEq, List.cons_append] at h
          exact ⟨p ++ p2, h.1.symm⟩
      | unresolved hh =>
          simp only [Option.some.injEq, Prod.mk.injEq] at h
          exact ⟨p, h.1.symm⟩
      | leaf v =>
          simp only [Option.some.injEq, Prod.mk.injEq] at h
          exact ⟨p, h.1.symm⟩
      | binary hs2 hgt2 l2 r2 =>
          simp only [Option.some.injEq, Prod.mk.injEq] at h
          exact ⟨p, h.1.symm⟩

/-- What the recursive walk of `delete_leaf` guarantees for each outcome:
an `absent` or `kept` subtree retraces to a non-leaf terminus; a `spliced`
edge sits at the current height and starts with the inverted key bit. -/
def DelOut (stor : Storage) (maxH : Nat) (k : List Bool) (fuel height : Nat) :
    DelRes → Prop
  | .absent n' => (∀ hh, n' ≠ .unresolved hh) ∧
      ∃ lst, traverseGo stor maxH k fuel n' height = some (n', lst) ∧ lst ≠ [] ∧
        ∀ v, lastNode lst ≠ some (.leaf v)
  | .noBinary => True
  | .spliced hgt2 p2 _ => hgt2 = height ∧ ∃ tail, p2 = (!keyBit k height) :: tail
  | .kept m => (∀ hh, m ≠ .unresolved hh) ∧
      ∃ lst, traverseGo stor maxH k fuel m height = some (m, lst) ∧ lst ≠ [] ∧
        ∀ v, lastNode lst ≠ some (.leaf v)

theorem DelOut_mono (stor : Storage) (maxH : Nat) (k : List Bool) (fuel height : Nat)
    (res : DelRes) (h : DelOut stor maxH k fuel height res) :
    DelOut stor maxH k (fuel + 1) height res := by
  cases res with
  | absent n' =>
      obtain ⟨hnu, lst, hl, hne, hnl⟩ := h
      exact ⟨hnu, lst, traverseGo_mono stor maxH k fuel n' height _ hl, hne, hnl⟩
  | noBinary => trivial
  | spliced hgt2 p2 c2 => exact h
  | kept m =>
      obtain ⟨hnu, lst, hl, hne, hnl⟩ := h
      exact ⟨hnu, lst, traverseGo_mono stor maxH k fuel m height _ hl, hne, hnl⟩

theorem deleteGo_out (stor : Storage) (maxH : Nat) (k : List Bool) :
    ∀ (fuel : Nat) (node : Node) (height : Nat) (res : DelRes),
      heightsOkAlong k node height = true →
      deleteGo stor maxH k fuel node height = some res →
      DelOut stor maxH k (fuel + 4) height res := by
  intro fuel
  induction fuel with
  | zero => intro node height res _ h; simp [deleteGo] at h
  | succ fuel ih =>
      intro node height res hOk h
      cases node with
      | unresolved hh =>
          rw [deleteGo_unres] at h
          cases hres : resolve stor maxH hh height with
          | none => rw [hres] at h; exact absurd h (by simp)
          | some n =>
              rw [hres] at h
              exact DelOut_mono stor maxH k (fuel + 4) height res
                (ih n height res (resolve_heightsOk stor maxH k hh height n hres) h)
      | leaf v =>
          rw [deleteGo_leafEq] at h
          simp only [Option.some.injEq] at h
          subst h
          trivial
      | binary hs hgt l r =>
          obtain ⟨hhgt, hOkChild⟩ := heightsOk_binary k hs hgt l r height hOk
          rw [deleteGo_binary] at h
          cases hrec : deleteGo stor maxH k fuel
              (if keyBit k hgt then r else l) (height + 1) with
          | none => rw [hrec] at h; exact absurd h (by simp)
          | some res0 =>
              rw [hrec] at h
              have hout := ih _ (height + 1) res0 hOkChild hrec
              cases res0 with
              | absent c' =>
                  simp only [Option.some.injEq] at h
                  subst h
                  obtain ⟨hnu, lst, hl, hne, hnl⟩ := hout
                  by_cases hd : keyBit k hgt
                  · simp only [if_pos hd]
                    refine ⟨fun hh2 hcon => Node.noConfusion hcon,
                      Node.binary hs hgt l c' :: lst, ?_, by simp, ?_⟩
                    · rw [traverseGo_binary, if_pos hd, hl]
                    · rw [lastNode_cons_of_ne_nil _ _ hne]
                      exact hnl
                  · simp only [if_neg hd]
                    refine ⟨fun hh2 hcon => Node.noConfusion hcon,
                      Node.binary hs hgt c' r :: lst, ?_, by simp, ?_⟩
                    · rw [traverseGo_binary, if_neg hd, hl]
                    · rw [lastNode_cons_of_ne_nil _ _ hne]
                      exact hnl
              | noBinary =>
                  cases hmerge : mergeEdges stor maxH hgt [!keyBit k hgt]
                      (if keyBit k hgt then l else r) with
                  | none => rw [hmerge] at h; exact absurd h (by simp)
                  | some pr =>
                      obtain ⟨p1, c1⟩ := pr
                      rw [hmerge] at h
                      simp only [Option.some.injEq] at h
                      subst h
                      obtain ⟨tail, htail⟩ :=
                        mergeEdges_cons stor maxH hgt (!keyBit k hgt) []
                          (if keyBit k hgt then l else r) p1 c1 hmerge
                      refine ⟨hhgt, tail, ?_⟩
                      rw [htail, hhgt]
              | spliced h2 p2 c2 =>
                  simp only [Option.some.injEq] at h
                  subst h
                  obtain ⟨hh2, tail, htail⟩ := hout
                  have hmm : pathMatches h2 p2 k = false := by
                    rw [htail, hh2]
                    exact isPfx_neg_head k (height + 1) tail
                  have hedge : ∀ fuel2 : Nat,
                      traverseGo stor maxH k (fuel2 + 1) (.edge none h2 p2 c2)
                          (height + 1) =
                        some (.edge none h2 p2 c2, [.edge none h2 p2 c2]) := by
                    intro fuel2
                    rw [traverseGo_edge, if_neg (by simp [hmm])]
                  by_cases hd : keyBit k hgt
                  · simp only [if_pos hd]
                    refine ⟨fun hh3 hcon => Node.noConfusion hcon,
                      [Node.binary none hgt l (.edge none h2 p2 c2),
                        .edge none h2 p2 c2], ?_, by simp, ?_⟩
                    · rw [traverseGo_binary, if_pos hd, hedge (fuel + 3)]
                    · intro v hcon
                      simp [lastNode] at hcon
                  · simp only [if_neg hd]
                    refine ⟨fun hh3 hcon => Node.noConfusion hcon,
                      [Node.binary none hgt (.edge none h2 p2 c2) r,
                        .edge none h2 p2 c2], ?_, by simp, ?_⟩
                    · rw [traverseGo_binary, if_neg hd, hedge (fuel + 3)]
                    · intro v hcon
                      simp [lastNode] at hcon
              | kept m =>
                  simp only [Option.some.injEq] at h
                  subst h
                  obtain ⟨hnu, lst, hl, hne, hnl⟩ := hout
                  by_cases hd : keyBit k hgt
                  · simp only [if_pos hd]
                    refine ⟨fun hh2 hcon => Node.noConfusion hcon,
                      Node.binary none hgt l m :: lst, ?_, by simp, ?_⟩
                    · rw [traverseGo_binary, if_pos hd, hl]
                    · rw [lastNode_cons_of_ne_nil _ _ hne]
                      exact hnl
                  · simp only [if_neg hd]
                    refine ⟨fun hh2 hcon => Node.noConfusion hcon,
                      Node.binary none hgt m r :: lst, ?_, by simp, ?_⟩
                    · rw [traverseGo_binary, if_neg hd, hl]
                    · rw [lastNode_cons_of_ne_nil _ _ hne]
                      exact hnl
      | edge hs hgt p c =>
          obtain ⟨hhgt, hOkChild⟩ := heightsOk_edge k hs hgt p c height hOk
          rw [deleteGo_edge] at h
          by_cases hm : pathMatches hgt p k
          · rw [if_pos hm] at h
            cases hrec : deleteGo stor maxH k fuel c (height + p.length) with
            | none => rw [hrec] at h; exact absurd h (by simp)
            | some res0 =>
                rw [hrec] at h
                have hout := ih _ (height + p.length) res0 (hOkChild hm) hrec
                cases res0 with
                | absent c' =>
                    simp only [Option.some.injEq] at h
                    subst h
                    obtain ⟨hnu, lst, hl, hne, hnl⟩ := hout
                    refine ⟨fun hh2 hcon => Node.noConfusion hcon,
                      Node.edge hs hgt p c' :: lst, ?_, by simp, ?_⟩
                    · rw [traverseGo_edge, if_pos hm, hl]
                    · rw [lastNode_cons_of_ne_nil _ _ hne]
                      exact hnl
                | noBinary =>
                    simp only [Option.some.injEq] at h
                    subst h
                    trivial
                | spliced h2 p2 c2 =>
                    simp only [Option.some.injEq] at h
                    subst h
                    obtain ⟨hh2, tail, htail⟩ := hout
                    have hmm : pathMatches hgt (p ++ p2) k = false := by
                      unfold pathMatches
                      rw [htail, hhgt]
                      exact isPfx_append_neg k p tail height
                    refine ⟨fun hh3 hcon => Node.noConfusion hcon,
                      [Node.edge none hgt (p ++ p2) c2], ?_, by simp, ?_⟩
                    · have heq : fuel + 1 + 4 = (fuel + 4) + 1 := rfl
                      rw [heq, traverseGo_edge, if_neg (by simp [hmm])]
                    · intro v hcon
                      simp [lastNode] at hcon
                | kept m =>
                    simp only [Option.some.injEq] at h
                    subst h
                    obtain ⟨hnu, lst, hl, hne, hnl⟩ := hout
                    refine ⟨fun hh2 hcon => Node.noConfusion hcon,
                      Node.edge none hgt p m :: lst, ?_, by simp, ?_⟩
                    · rw [traverseGo_edge, if_pos hm, hl]
                    · rw [lastNode_cons_of_ne_nil _ _ hne]
                      exact hnl
          · rw [if_neg hm] at h
            simp only [Option.some.injEq] at h
            subst h
            refine ⟨fun hh2 hcon => Node.noConfusion hcon,
              [Node.edge hs hgt p c], ?_, by simp, ?_⟩
            · have heq : fuel + 1 + 4 = (fuel + 4) + 1 := rfl
              rw [heq, traverseGo_edge, if_neg (by simp [hm])]
            · intro v hcon
              simp [lastNode] at hcon

theorem get_match_none (lst : List Node) (hnl : ∀ v, lastNode lst ≠ some (.leaf v)) :
    (match lastNode lst with
      | some (.leaf v) => if v = 0 then none else some v
      | _ => none) = (none : Option Felt) := by
  cases hlast : lastNode lst with
  | none => rfl
  | some x =>
      cases x with
      | leaf v => exact absurd hlast (hnl v)
      | unresolved hh => rfl
      | binary hs hgt l r => rfl
      | edge hs hgt p c => rfl

/-- The deletion half of the round trip. -/
theorem delete_then_get (stor : Storage) (maxH : Nat) (root : Node) (k : List Bool)
    (fuel : Nat) (n' : Node) (hOk : heightsOkAlong k root 0 = true)
    (hdel : deleteLeaf stor maxH root k fuel = some n') :
    get stor maxH n' k (fuel + 4) = some none := by
  unfold deleteLeaf at hdel
  by_cases he : root.isEmptyNode
  · rw [if_pos he] at hdel
    simp only [Option.some.injEq] at hdel
    subst hdel
    unfold get traverse
    rw [he]
    simp [lastNode]
  · rw [if_neg he] at hdel
    cases hrec : deleteGo stor maxH k fuel root 0 with
    | none => rw [hrec] at hdel; exact absurd hdel (by simp)
    | some res =>
        rw [hrec] at hdel
        have hout := deleteGo_out stor maxH k fuel root 0 res hOk hrec
        cases res with
        | absent n1 =>
            simp only [Option.some.injEq] at hdel
            subst hdel
            obtain ⟨hnu, lst, hl, hne, hnl⟩ := hout
            unfold get traverse
            rw [not_unres_not_empty _ hnu]
            simp only [Bool.false_eq_true, if_false, hl, Option.map_some']
        | noBinary =>
            simp only [Option.some.injEq] at hdel
            subst hdel
            unfold get traverse
            rw [show (Node.unresolved 0).isEmptyNode = true from rfl]
            simp [lastNode]
        | spliced hgt2 p2 c2 =>
            simp only [Option.some.injEq] at hdel
            subst hdel
            obtain ⟨hh2, tail, htail⟩ := hout
            have hmm : pathMatches hgt2 p2 k = false := by
              rw [htail, hh2]
              exact isPfx_neg_head k 0 tail
            unfold get traverse
            rw [show (Node.edge none hgt2 p2 c2).isEmptyNode = false from rfl]
            have htrav : traverseGo stor maxH k (fuel + 4) (.edge none hgt2 p2 c2) 0 =
                some (.edge none hgt2 p2 c2, [.edge none hgt2 p2 c2]) := by
              have heq : fuel + 4 = (fuel + 3) + 1 := rfl
              rw [heq, traverseGo_edge, if_neg (by simp [hmm])]
            simp only [Bool.false_eq_true, if_false, htrav, Option.map_some']
            rfl
        | kept m =>
            simp only [Option.some.injEq] at hdel
            subst hdel
            obtain ⟨hnu, lst, hl, hne, hnl⟩ := hout
            unfold get traverse
            rw [not_unres_not_empty _ hnu]
            simp only [Bool.false_eq_true, if_false, hl, Option.map_some']

/-- C1: round trip of set and get — on any tree, after `set k v` with
`v ≠ 0`, `get k` returns `some v`; and (under the spec's height invariant
along the key, invariant 4) after `set k 0` — which the code delegates to
`delete_leaf` — `get k` returns `none`. -/
theorem C1_set_get_roundtrip (stor : Storage) (maxH : Nat) (root : Node)
    (k : List Bool) (v : Felt) (fuel : Nat) :
    (∀ n', v ≠ 0 → set stor maxH root k v fuel = some n' →
      get stor maxH n' k (fuel + 4) = some (some v)) ∧
    (∀ n', heightsOkAlong k root 0 = true → set stor maxH root k 0 fuel = some n' →
      get stor maxH n' k (fuel + 4) = some none) := by
  constructor
  · intro n' hv hset
    exact set_then_get stor maxH root k v fuel n' hv hset
  · intro n' hOk hset
    have hdel : deleteLeaf stor maxH root k fuel = some n' := by
      unfold set at hset
      simpa using hset
    exact delete_then_get stor maxH root k fuel n' hOk hdel

theorem C1_set_get_roundtrip_witness :
    ((7 : Felt) ≠ 0 ∧
      set nullStorage 2 (.unresolved 0) [true, false] 7 9 =
        some (.edge none 0 [true, false] (.leaf 7)) ∧
      get nullStorage 2 (.edge none 0 [true, false] (.leaf 7)) [true, false] 13 =
        some (some 7)) ∧
    (heightsOkAlong [true] (.edge none 0 [true] (.leaf 5)) 0 = true ∧
      set nullStorage 1 (.edge none 0 [true] (.leaf 5)) [true] 0 9 =
        some (.unresolved 0) ∧
      get nullStorage 1 (.unresolved 0) [true] 13 = some none) :=
  ⟨⟨by decide, by decide,
      (C1_set_get_roundtrip nullStorage 2 (.unresolved 0) [true, false] 7 9).1
        (.edge none 0 [true, false] (.leaf 7)) (by decide) (by decide)⟩,
    ⟨by decide, by decide,
      (C1_set_get_roundtrip nullStorage 1 (.edge none 0 [true] (.leaf 5)) [true] 5 9).2
        (.unresolved 0) (by decide) (by decide)⟩⟩

/-! ### C8: deleting an absent key -/

/-- Whether the last node of a traversal path is a leaf (the test
`delete_leaf` performs on `path.last()`). -/
def lastIsLeaf (lst : List Node) : Bool :=
  match lastNode lst with
  | some (.leaf _) => true
  | _ => false

theorem lastIsLeaf_cons (x : Node) (ns : List Node) (h : ns ≠ []) :
    lastIsLeaf (x :: ns) = lastIsLeaf ns := by
  unfold lastIsLeaf
  rw [lastNode_cons_of_ne_nil _ _ h]

/-- When the traversal terminus is not a leaf, `delete_leaf`'s walk returns
the resolved-in-place subtree unchanged. -/
theorem traverse_absent_deleteGo (stor : Storage) (maxH : Nat) (k : List Bool) :
    ∀ (fuel : Nat) (node : Node) (height : Nat) (n' : Node) (lst : List Node),
      traverseGo stor maxH k fuel node height = some (n', lst) →
      lastIsLeaf lst = false →
      deleteGo stor maxH k fuel node height = some (.absent n') := by
  intro fuel
  induction fuel with
  | zero => intro node height n' lst h _; simp [traverseGo] at h
  | succ fuel ih =>
      intro node height n' lst h habs
      cases node with
      | unresolved hh =>
          rw [traverseGo_unres] at h
          rw [deleteGo_unres]
          cases hres : resolve stor maxH hh height with
          | none => rw [hres] at h; exact absurd h (by simp)
          | some n =>
              rw [hres] at h
              exact ih n height n' lst h habs
      | leaf v =>
          rw [traverseGo_leaf] at h
          simp only [Option.some.injEq, Prod.mk.injEq] at h
          rw [← h.2] at habs
          simp [lastIsLeaf, lastNode] at habs
      | binary hs hgt l r =>
          rw [traverseGo_binary] at h
          by_cases hd : keyBit k hgt
          · rw [if_pos hd] at h
            cases hrec : traverseGo stor maxH k fuel r (height + 1) with
            | none => rw [hrec] at h; exact absurd h (by simp)
            | some pr =>
                obtain ⟨r', ns⟩ := pr
                rw [hrec] at h
                simp only [Option.some.injEq, Prod.mk.injEq] at h
                obtain ⟨hne, _, _, _⟩ := traverseGo_last stor maxH k fuel r (height + 1)
                  r' ns hrec
                rw [← h.2, lastIsLeaf_cons _ _ hne] at habs
                have hdel := ih r (height + 1) r' ns hrec habs
                rw [deleteGo_binary]
                simp only [hd, if_true, hdel]
                rw [← h.1]
          · rw [if_neg hd] at h
            cases hrec : traverseGo stor maxH k fuel l (height + 1) with
            | none => rw [hrec] at h; exact absurd h (by simp)
            | some pr =>
                obtain ⟨l', ns⟩ := pr
                rw [hrec] at h
                simp only [Option.some.injEq, Prod.mk.injEq] at h
                obtain ⟨hne, _, _, _⟩ := traverseGo_last stor maxH k fuel l (height + 1)
                  l' ns hrec
                rw [← h.2, lastIsLeaf_cons _ _ hne] at habs
                have hdel := ih l (height + 1) l' ns hrec habs
                have hd2 : keyBit k hgt = false := by simpa using hd
                rw [deleteGo_binary]
                simp only [hd2, Bool.false_eq_true, if_false, hdel]
                rw [← h.1]
      | edge hs hgt p c =>
          rw [traverseGo_edge] at h
          by_cases hm : pathMatches hgt p k
          · rw [if_pos hm] at h
            cases hrec : traverseGo stor maxH k fuel c (height + p.length) with
            | none => rw [hrec] at h; exact absurd h (by simp)
            | some pr =>
                obtain ⟨c', ns⟩ := pr
                rw [hrec] at h
                simp only [Option.some.injEq, Prod.mk.injEq] at h
                obtain ⟨hne, _, _, _⟩ := traverseGo_last stor maxH k fuel c
                  (height + p.length) c' ns hrec
                rw [← h.2, lastIsLeaf_cons _ _ hne] at habs
                have hdel := ih c (height + p.length) c' ns hrec habs
                rw [deleteGo_edge]
                simp only [hm, if_true, hdel]
                rw [← h.1]
          · rw [if_neg hm] at h
            simp only [Option.some.injEq, Prod.mk.injEq] at h
            have hm2 : pathMatches hgt p k = false := by simpa using hm
            rw [deleteGo_edge]
            simp only [hm2, Bool.false_eq_true, if_false]
            rw [← h.1]

theorem resolve_preserves (stor : Storage) (maxH : Nat) (hh : Felt) (height : Nat)
    (n : Node) (hres : resolve stor maxH hh height = some n) :
    n.hashOf = some hh ∧ ∀ (Hb : Felt → Felt → Felt) (He : Felt → List Bool → Felt),
      chash Hb He n = hh := by
  unfold resolve at hres
  by_cases hmx : height = maxH
  · rw [if_pos hmx] at hres
    simp only [Option.some.injEq] at hres
    subst hres
    exact ⟨rfl, fun _ _ => rfl⟩
  · rw [if_neg hmx] at hres
    cases hstor : stor hh with
    | none => rw [hstor] at hres; cases hres
    | some pn =>
        rw [hstor] at hres
        cases pn with
        | binary l r =>
            simp only [Option.some.injEq] at hres
            subst hres
            exact ⟨rfl, fun _ _ => rfl⟩
        | edge p c =>
            simp only [Option.some.injEq] at hres
            subst hres
            exact ⟨rfl, fun _ _ => rfl⟩
        | leaf => cases hres

/-- Traversal (with its in-place resolution) preserves every cached hash and
the hash a commit would compute. -/
theorem traverseGo_preserves (stor : Storage) (maxH : Nat) (k : List Bool) :
    ∀ (fuel : Nat) (node : Node) (height : Nat) (n' : Node) (lst : List Node),
      traverseGo stor maxH k fuel node height = some (n', lst) →
      n'.hashOf = node.hashOf ∧
      ∀ (Hb : Felt → Felt → Felt) (He : Felt → List Bool → Felt),
        chash Hb He n' = chash Hb He node := by
  intro fuel
  induction fuel with
  | zero => intro node height n' lst h; simp [traverseGo] at h
  | succ fuel ih =>
      intro node height n' lst h
      cases node with
      | unresolved hh =>
          rw [traverseGo_unres] at h
          cases hres : resolve stor maxH hh height with
          | none => rw [hres] at h; exact absurd h (by simp)
          | some n =>
              rw [hres] at h
              obtain ⟨hh1, hh2⟩ := ih n height n' lst h
              obtain ⟨hr1, hr2⟩ := resolve_preserves stor maxH hh height n hres
              exact ⟨by rw [hh1, hr1]; rfl, fun Hb He => by rw [hh2 Hb He, hr2 Hb He]; rfl⟩
      | binary hs hgt l r =>
          rw [traverseGo_binary] at h
          by_cases hd : keyBit k hgt
          · rw [if_pos hd] at h
            cases hrec : traverseGo stor maxH k fuel r (height + 1) with
            | none => rw [hrec] at h; exact absurd h (by simp)
            | some pr =>
                obtain ⟨r', ns⟩ := pr
                rw [hrec] at h
                simp only [Option.some.injEq, Prod.mk.injEq] at h
                obtain ⟨hp1, hp2⟩ := ih r (height + 1) r' ns hrec
                rw [← h.1]
                refine ⟨rfl, fun Hb He => ?_⟩
                cases hs with
                | some hsv => rfl
                | none => simp [chash, hp2 Hb He]
          · rw [if_neg hd] at h
            cases hrec : traverseGo stor maxH k fuel l (height + 1) with
            | none => rw [hrec] at h; exact absurd h (by simp)
            | some pr =>
                obtain ⟨l', ns⟩ := pr
                rw [hrec] at h
                simp only [Option.some.injEq, Prod.mk.injEq] at h
                obtain ⟨hp1, hp2⟩ := ih l (height + 1) l' ns hrec
                rw [← h.1]
                refine ⟨rfl, fun Hb He => ?_⟩
                cases hs with
                | some hsv => rfl
                | none => simp [chash, hp2 Hb He]
      | edge hs hgt p c =>
          rw [traverseGo_edge] at h
          by_cases hm : pathMatches hgt p k
          · rw [if_pos hm] at h
            cases hrec : traverseGo stor maxH k fuel c (height + p.length) with
            | none => rw [hrec] at h; exact absurd h (by simp)
            | some pr =>
                obtain ⟨c', ns⟩ := pr
                rw [hrec] at h
                simp only [Option.some.injEq, Prod.mk.injEq] at h
                obtain ⟨hp1, hp2⟩ := ih c (height + p.length) c' ns hrec
                rw [← h.1]
                refine ⟨rfl, fun Hb He => ?_⟩
                cases hs with
                | some hsv => rfl
                | none => simp [chash, hp2 Hb He]
          · rw [if_neg hm] at h
            simp only [Option.some.injEq, Prod.mk.injEq] at h
            rw [← h.1]
            exact ⟨rfl, fun _ _ => rfl⟩
      | leaf v =>
          rw [traverseGo_leaf] at h
          simp only [Option.some.injEq, Prod.mk.injEq] at h
          rw [← h.1]
          exact ⟨rfl, fun _ _ => rfl⟩

/-- A commit labels the root with exactly `chash`. -/
theorem commitSubtree_hashOf (Hb : Felt → Felt → Felt) (He : Felt → List Bool → Felt) :
    ∀ n : Node, (commitSubtree Hb He n).1.hashOf = some (chash Hb He n) := by
  intro n
  induction n with
  | unresolved h => rfl
  | leaf v => rfl
  | binary hs hgt l r ihl ihr =>
      cases hs with
      | some h => rfl
      | none =>
          simp only [commitSubtree]
          rw [ihl, ihr]
          simp [Node.hashOf, chash]
  | edge hs hgt p c ihc =>
      cases hs with
      | some h => rfl
      | none =>
          simp only [commitSubtree]
          rw [ihc]
          simp [Node.hashOf, chash]

/-- C8 (amended): deleting an absent key — when the traversal terminus is not
a leaf, `delete_leaf` returns with the tree exactly as the traversal left it:
no node is marked dirty, the root keeps its cached hash, and the commit hash
is unchanged; the only difference from the pre-call tree is that `Unresolved`
handles along the traversed path have been resolved in place (which preserves
their cached hashes). -/
theorem C8_absent_delete_noop (stor : Storage) (maxH : Nat) (root : Node)
    (k : List Bool) (fuel : Nat) (root' : Node) (lst : List Node)
    (htrav : traverse stor maxH root k fuel = some (root', lst))
    (habs : lastIsLeaf lst = false) :
    deleteLeaf stor maxH root k fuel = some root' ∧
    root'.hashOf = root.hashOf ∧
    ∀ (Hb : Felt → Felt → Felt) (He : Felt → List Bool → Felt),
      (commitMut Hb He root').1 = (commitMut Hb He root).1 := by
  unfold traverse at htrav
  by_cases he : root.isEmptyNode
  · rw [if_pos he] at htrav
    simp only [Option.some.injEq, Prod.mk.injEq] at htrav
    rw [← htrav.1]
    refine ⟨?_, rfl, fun _ _ => rfl⟩
    unfold deleteLeaf
    rw [if_pos he]
  · rw [if_neg he] at htrav
    obtain ⟨hp1, hp2⟩ := traverseGo_preserves stor maxH k fuel root 0 root' lst htrav
    refine ⟨?_, hp1, fun Hb He => ?_⟩
    · unfold deleteLeaf
      rw [if_neg he, traverse_absent_deleteGo stor maxH k fuel root 0 root' lst htrav habs]
    · show (commitSubtree Hb He root').1.hashOf.getD 0 =
        (commitSubtree Hb He root).1.hashOf.getD 0
      rw [commitSubtree_hashOf, commitSubtree_hashOf, hp2 Hb He]

theorem C8_absent_delete_noop_witness :
    traverse nullStorage 1 (.edge none 0 [true] (.leaf 5)) [false] 5 =
      some (.edge none 0 [true] (.leaf 5), [.edge none 0 [true] (.leaf 5)]) ∧
    lastIsLeaf [Node.edge none 0 [true] (.leaf 5)] = false ∧
    deleteLeaf nullStorage 1 (.edge none 0 [true] (.leaf 5)) [false] 5 =
      some (.edge none 0 [true] (.leaf 5)) :=
  ⟨by decide, by decide,
    (C8_absent_delete_noop nullStorage 1 (.edge none 0 [true] (.leaf 5)) [false] 5
      (.edge none 0 [true] (.leaf 5)) [.edge none 0 [true] (.leaf 5)]
      (by decide) (by decide)).1⟩

/-- Storage for the C8 counterexample: hash 5 is an edge record over path
`[true]` with child hash 7. -/
def storC8 : Storage := fun h => if h == 5 then some (.edge [true] 7) else none

/-- C8, as literally stated, is false: deleting the absent key `[false,false]`
from the tree whose root handle holds `Unresolved(5)` returns a tree whose
root holds the resolved edge, not the `Unresolved(5)` it held before — the
tree's state is not identical to the state had the call not happened (the
cached hash 5 is preserved, but the node was rewritten by resolution). -/
theorem C8_absent_delete_noop_counterexample :
    traverse storC8 2 (.unresolved 5) [false, false] 9 =
      some (.edge (some 5) 0 [true] (.unresolved 7),
        [.edge (some 5) 0 [true] (.unresolved 7)]) ∧
    lastIsLeaf [Node.edge (some 5) 0 [true] (.unresolved 7)] = false ∧
    deleteLeaf storC8 2 (.unresolved 5) [false, false] 9 =
      some (.edge (some 5) 0 [true] (.unresolved 7)) ∧
    (Node.edge (some 5) 0 [true] (.unresolved 7)) ≠ .unresolved 5 :=
  ⟨by decide, by decide, by decide, by decide⟩

/-! ### C4: deletion splice, against the path-indexed spec description -/

theorem replaceNth_zero (k : List Bool) (n repl : Node) :
    replaceNth k n 0 repl = repl := by
  cases n <;> rfl

theorem specRebuild_zero (k : List Bool) (root : Node) (lst : List Node)
    (bhgt : Nat) (p1 : List Bool) (c1 : Node) :
    specRebuild k root lst 0 bhgt p1 c1 = .edge none bhgt p1 c1 := by
  unfold specRebuild
  rw [replaceNth_zero]

theorem specRebuild_one_edge (k : List Bool) (hs : Option Felt) (hgt : Nat)
    (p : List Bool) (c' : Node) (ns : List Node) (bhgt : Nat) (p1 : List Bool)
    (c1 : Node) (hm : pathMatches hgt p k = true) :
    specRebuild k (.edge hs hgt p c') (Node.edge hs hgt p c' :: ns) 1 bhgt p1 c1 =
      .edge none hgt (p ++ p1) c1 := by
  unfold specRebuild
  simp [dirtyAlong, hm, replaceNth, replaceNth_zero]

theorem specRebuild_one_binary_right (k : List Bool) (hs : Option Felt) (hgt : Nat)
    (l r' : Node) (ns : List Node) (bhgt : Nat) (p1 : List Bool) (c1 : Node)
    (hd : keyBit k hgt = true) :
    specRebuild k (.binary hs hgt l r') (Node.binary hs hgt l r' :: ns) 1 bhgt p1 c1 =
      .binary none hgt l (.edge none bhgt p1 c1) := by
  unfold specRebuild
  simp [dirtyAlong, hd, replaceNth, replaceNth_zero]

theorem specRebuild_one_binary_left (k : List Bool) (hs : Option Felt) (hgt : Nat)
    (l' r : Node) (ns : List Node) (bhgt : Nat) (p1 : List Bool) (c1 : Node)
    (hd : keyBit k hgt = false) :
    specRebuild k (.binary hs hgt l' r) (Node.binary hs hgt l' r :: ns) 1 bhgt p1 c1 =
      .binary none hgt (.edge none bhgt p1 c1) r := by
  unfold specRebuild
  simp [dirtyAlong, hd, replaceNth, replaceNth_zero]

theorem specRebuild_cons_edge (k : List Bool) (hs : Option Felt) (hgt : Nat)
    (p : List Bool) (c' : Node) (ns : List Node) (j0 : Nat) (bhgt : Nat)
    (p1 : List Bool) (c1 : Node) (hm : pathMatches hgt p k = true) :
    specRebuild k (.edge hs hgt p c') (Node.edge hs hgt p c' :: ns) (j0 + 2)
        bhgt p1 c1 =
      .edge none hgt p (specRebuild k c' ns (j0 + 1) bhgt p1 c1) := by
  unfold specRebuild
  cases hg : ns[j0]? with
  | none => simp [dirtyAlong, hm, replaceNth, hg]
  | some x =>
      cases x with
      | edge hs0 h0 p0 c0 => simp [dirtyAlong, hm, replaceNth, hg]
      | unresolved hh => simp [dirtyAlong, hm, replaceNth, hg]
      | leaf v => simp [dirtyAlong, hm, replaceNth, hg]
      | binary hs0 h0 l0 r0 => simp [dirtyAlong, hm, replaceNth, hg]

theorem specRebuild_cons_binary_right (k : List Bool) (hs : Option Felt) (hgt : Nat)
    (l r' : Node) (ns : List Node) (j0 : Nat) (bhgt : Nat) (p1 : List Bool)
    (c1 : Node) (hd : keyBit k hgt = true) :
    specRebuild k (.binary hs hgt l r') (Node.binary hs hgt l r' :: ns) (j0 + 2)
        bhgt p1 c1 =
      .binary none hgt l (specRebuild k r' ns (j0 + 1) bhgt p1 c1) := by
  unfold specRebuild
  cases hg : ns[j0]? with
  | none => simp [dirtyAlong, hd, replaceNth, hg]
  | some x =>
      cases x with
      | edge hs0 h0 p0 c0 => simp [dirtyAlong, hd, replaceNth, hg]
      | unresolved hh => simp [dirtyAlong, hd, replaceNth, hg]
      | leaf v => simp [dirtyAlong, hd, replaceNth, hg]
      | binary hs0 h0 l0 r0 => simp [dirtyAlong, hd, replaceNth, hg]

theorem specRebuild_cons_binary_left (k : List Bool) (hs : Option Felt) (hgt : Nat)
    (l' r : Node) (ns : List Node) (j0 : Nat) (bhgt : Nat) (p1 : List Bool)
    (c1 : Node) (hd : keyBit k hgt = false) :
    specRebuild k (.binary hs hgt l' r) (Node.binary hs hgt l' r :: ns) (j0 + 2)
        bhgt p1 c1 =
      .binary none hgt (specRebuild k l' ns (j0 + 1) bhgt p1 c1) r := by
  unfold specRebuild
  cases hg : ns[j0]? with
  | none => simp [dirtyAlong, hd, replaceNth, hg]
  | some x =>
      cases x with
      | edge hs0 h0 p0 c0 => simp [dirtyAlong, hd, replaceNth, hg]
      | unresolved hh => simp [dirtyAlong, hd, replaceNth, hg]
      | leaf v => simp [dirtyAlong, hd, replaceNth, hg]
      | binary hs0 h0 l0 r0 => simp [dirtyAlong, hd, replaceNth, hg]

theorem lastBinaryIdx_cons (x : Node) (ns : List Node) :
    lastBinaryIdx (x :: ns) =
      (match lastBinaryIdx ns with
        | some i => some (i + 1)
        | none => if x.isBinaryNode then some 0 else none) := rfl

/-- The arm of the path-indexed description that applies at index `i`: the
deepest binary at the head of the path becomes the spliced edge itself, a
deeper one yields the `specRebuild` tree. -/
def SpecArm (k : List Bool) (n' : Node) (lst : List Node) (i : Nat) (bhgt : Nat)
    (p1 : List Bool) (c1 : Node) (res : DelRes) : Prop :=
  match i with
  | 0 => res = .spliced bhgt p1 c1
  | _ + 1 => res = .kept (specRebuild k n' lst i bhgt p1 c1)

/-- How the result of `delete_leaf`'s walk relates to the traversal path:
no binary on the path means the walk reports `noBinary`; otherwise, with the
deepest binary at index `i` and `merge_edges` applied to the one-bit edge
toward its surviving child, the walk reports exactly the spliced edge (at
index 0) or the path-rebuilt tree of `specRebuild` (deeper). -/
def SpecRel (stor : Storage) (maxH : Nat) (k : List Bool) (n' : Node)
    (lst : List Node) (res : DelRes) : Prop :=
  match lastBinaryIdx lst with
  | none => res = .noBinary
  | some i =>
      ∃ bhs bhgt bl br p1 c1,
        lst.get? i = some (.binary bhs bhgt bl br) ∧
        mergeEdges stor maxH bhgt [!keyBit k bhgt]
          (if keyBit k bhgt then bl else br) = some (p1, c1) ∧
        SpecArm k n' lst i bhgt p1 c1 res

theorem SpecRel_none (stor : Storage) (maxH : Nat) (k : List Bool) (n' : Node)
    (lst : List Node) (res : DelRes) (hlb : lastBinaryIdx lst = none) :
    SpecRel stor maxH k n' lst res ↔ res = .noBinary := by
  unfold SpecRel
  rw [hlb]

theorem SpecRel_some (stor : Storage) (maxH : Nat) (k : List Bool) (n' : Node)
    (lst : List Node) (res : DelRes) (i : Nat) (hlb : lastBinaryIdx lst = some i) :
    SpecRel stor maxH k n' lst res ↔
      ∃ bhs bhgt bl br p1 c1,
        lst.get? i = some (.binary bhs bhgt bl br) ∧
        mergeEdges stor maxH bhgt [!keyBit k bhgt]
          (if keyBit k bhgt then bl else br) = some (p1, c1) ∧
        SpecArm k n' lst i bhgt p1 c1 res := by
  unfold SpecRel
  rw [hlb]

/-- The walk of `delete_leaf`, whenever it completes, produces exactly what
the path-indexed description of spec 4.4 prescribes. -/
theorem deleteGo_spec (stor : Storage) (maxH : Nat) (k : List Bool) :
    ∀ (fuel : Nat) (node : Node) (height : Nat) (n' : Node) (lst : List Node)
      (v : Felt) (res : DelRes),
      traverseGo stor maxH k fuel node height = some (n', lst) →
      lastNode lst = some (.leaf v) →
      deleteGo stor maxH k fuel node height = some res →
      SpecRel stor maxH k n' lst res := by
  intro fuel
  induction fuel with
  | zero => intro node height n' lst v res htrav _ _; simp [traverseGo] at htrav
  | succ fuel ih =>
      intro node height n' lst v res htrav hleaf hdel
      cases node with
      | unresolved hh =>
          rw [traverseGo_unres] at htrav
          rw [deleteGo_unres] at hdel
          cases hres : resolve stor maxH hh height with
          | none => rw [hres] at htrav; exact absurd htrav (by simp)
          | some n =>
              rw [hres] at htrav hdel
              exact ih n height n' lst v res htrav hleaf hdel
      | leaf w =>
          rw [traverseGo_leaf] at htrav
          rw [deleteGo_leafEq] at hdel
          simp only [Option.some.injEq, Prod.mk.injEq] at htrav hdel
          obtain ⟨hn', hlst⟩ := htrav
          subst hn'
          subst hlst
          subst hdel
          exact (SpecRel_none stor maxH k (.leaf w) [.leaf w] .noBinary rfl).mpr rfl
      | binary hs hgt l r =>
          rw [traverseGo_binary] at htrav
          rw [deleteGo_binary] at hdel
          by_cases hd : keyBit k hgt
          · rw [if_pos hd] at htrav
            simp only [hd, Bool.not_true, if_true] at hdel
            cases hrecT : traverseGo stor maxH k fuel r (height + 1) with
            | none => rw [hrecT] at htrav; exact absurd htrav (by simp)
            | some prT =>
                obtain ⟨r', ns⟩ := prT
                rw [hrecT] at htrav
                simp only [Option.some.injEq, Prod.mk.injEq] at htrav
                obtain ⟨hn', hlst⟩ := htrav
                subst hn'
                subst hlst
                obtain ⟨hne, _, _, _⟩ :=
                  traverseGo_last stor maxH k fuel r (height + 1) r' ns hrecT
                rw [lastNode_cons_of_ne_nil _ _ hne] at hleaf
                cases hrecD : deleteGo stor maxH k fuel r (height + 1) with
                | none => rw [hrecD] at hdel; exact absurd hdel (by simp)
                | some res0 =>
                    rw [hrecD] at hdel
                    have hrel0 := ih r (height + 1) r' ns v res0 hrecT hleaf hrecD
                    cases hlb : lastBinaryIdx ns with
                    | none =>
                        have hres0 := (SpecRel_none stor maxH k r' ns res0 hlb).mp hrel0
                        subst hres0
                        cases hmerge : mergeEdges stor maxH hgt [false] l with
                        | none =>
                            simp only [hmerge] at hdel
                            exact absurd hdel (by simp)
                        | some pr1 =>
                            obtain ⟨p1, c1⟩ := pr1
                            simp only [hmerge, Option.some.injEq] at hdel
                            subst hdel
                            have hlbl : lastBinaryIdx (Node.binary hs hgt l r' :: ns) =
                                some 0 := by
                              simp [lastBinaryIdx_cons, hlb, Node.isBinaryNode]
                            refine (SpecRel_some stor maxH k _ _ _ 0 hlbl).mpr ?_
                            refine ⟨hs, hgt, l, r', p1, c1, rfl, ?_, rfl⟩
                            simp only [hd, Bool.not_true, if_true]
                            exact hmerge
                    | some i =>
                        have hlbl : lastBinaryIdx (Node.binary hs hgt l r' :: ns) =
                            some (i + 1) := by
                          simp [lastBinaryIdx_cons, hlb, Node.isBinaryNode]
                        obtain ⟨bhs, bhgt, bl, br, p1, c1, hget, hmg, harm⟩ :=
                          (SpecRel_some stor maxH k r' ns res0 i hlb).mp hrel0
                        refine (SpecRel_some stor maxH k _ _ _ (i + 1) hlbl).mpr ?_
                        refine ⟨bhs, bhgt, bl, br, p1, c1, hget, hmg, ?_⟩
                        cases i with
                        | zero =>
                            have hres0 : res0 = .spliced bhgt p1 c1 := harm
                            subst hres0
                            simp only [Option.some.injEq] at hdel
                            subst hdel
                            show _ = DelRes.kept
                              (specRebuild k (.binary hs hgt l r')
                                (Node.binary hs hgt l r' :: ns) 1 bhgt p1 c1)
                            rw [specRebuild_one_binary_right k hs hgt l r' ns
                              bhgt p1 c1 hd]
                        | succ i0 =>
                            have hres0 : res0 =
                                .kept (specRebuild k r' ns (i0 + 1) bhgt p1 c1) := harm
                            subst hres0
                            simp only [Option.some.injEq] at hdel
                            subst hdel
                            show _ = DelRes.kept
                              (specRebuild k (.binary hs hgt l r')
                                (Node.binary hs hgt l r' :: ns) (i0 + 2) bhgt p1 c1)
                            rw [specRebuild_cons_binary_right k hs hgt l r' ns i0
                              bhgt p1 c1 hd]
          · have hd2 : keyBit k hgt = false := by simpa using hd
            rw [if_neg hd] at htrav
            simp only [hd2, Bool.not_false, Bool.false_eq_true, if_false] at hdel
            cases hrecT : traverseGo stor maxH k fuel l (height + 1) with
            | none => rw [hrecT] at htrav; exact absurd htrav (by simp)
            | some prT =>
                obtain ⟨l', ns⟩ := prT
                rw [hrecT] at htrav
                simp only [Option.some.injEq, Prod.mk.injEq] at htrav
                obtain ⟨hn', hlst⟩ := htrav
                subst hn'
                subst hlst
                obtain ⟨hne, _, _, _⟩ :=
                  traverseGo_last stor maxH k fuel l (height + 1) l' ns hrecT
                rw [lastNode_cons_of_ne_nil _ _ hne] at hleaf
                cases hrecD : deleteGo stor maxH k fuel l (height + 1) with
                | none => rw [hrecD] at hdel; exact absurd hdel (by simp)
                | some res0 =>
                    rw [hrecD] at hdel
                    have hrel0 := ih l (height + 1) l' ns v res0 hrecT hleaf hrecD
                    cases hlb : lastBinaryIdx ns with
                    | none =>
                        have hres0 := (SpecRel_none stor maxH k l' ns res0 hlb).mp hrel0
                        subst hres0
                        cases hmerge : mergeEdges stor maxH hgt [true] r with
                        | none =>
                            simp only [hmerge] at hdel
                            exact absurd hdel (by simp)
                        | some pr1 =>
                            obtain ⟨p1, c1⟩ := pr1
                            simp only [hmerge, Option.some.injEq] at hdel
                            subst hdel
                            have hlbl : lastBinaryIdx (Node.binary hs hgt l' r :: ns) =
                                some 0 := by
                              simp [lastBinaryIdx_cons, hlb, Node.isBinaryNode]
                            refine (SpecRel_some stor maxH k _ _ _ 0 hlbl).mpr ?_
                            refine ⟨hs, hgt, l', r, p1, c1, rfl, ?_, rfl⟩
                            simp only [hd2, Bool.not_false, Bool.false_eq_true, if_false]
                            exact hmerge
                    | some i =>
                        have hlbl : lastBinaryIdx (Node.binary hs hgt l' r :: ns) =
                            some (i + 1) := by
                          simp [lastBinaryIdx_cons, hlb, Node.isBinaryNode]
                        obtain ⟨bhs, bhgt, bl, br, p1, c1, hget, hmg, harm⟩ :=
                          (SpecRel_some stor maxH k l' ns res0 i hlb).mp hrel0
                        refine (SpecRel_some stor maxH k _ _ _ (i + 1) hlbl).mpr ?_
                        refine ⟨bhs, bhgt, bl, br, p1, c1, hget, hmg, ?_⟩
                        cases i with
                        | zero =>
                            have hres0 : res0 = .spliced bhgt p1 c1 := harm
                            subst hres0
                            simp only [Option.some.injEq] at hdel
                            subst hdel
                            show _ = DelRes.kept
                              (specRebuild k (.binary hs hgt l' r)
                                (Node.binary hs hgt l' r :: ns) 1 bhgt p1 c1)
                            rw [specRebuild_one_binary_left k hs hgt l' r ns
                              bhgt p1 c1 hd2]
                        | succ i0 =>
                            have hres0 : res0 =
                                .kept (specRebuild k l' ns (i0 + 1) bhgt p1 c1) := harm
                            subst hres0
                            simp only [Option.some.injEq] at hdel
                            subst hdel
                            show _ = DelRes.kept
                              (specRebuild k (.binary hs hgt l' r)
                                (Node.binary hs hgt l' r :: ns) (i0 + 2) bhgt p1 c1)
                            rw [specRebuild_cons_binary_left k hs hgt l' r ns i0
                              bhgt p1 c1 hd2]
      | edge hs hgt p c =>
          rw [traverseGo_edge] at htrav
          rw [deleteGo_edge] at hdel
          by_cases hm : pathMatches hgt p k
          · rw [if_pos hm] at htrav
            rw [if_pos hm] at hdel
            cases hrecT : traverseGo stor maxH k fuel c (height + p.length) with
            | none => rw [hrecT] at htrav; exact absurd htrav (by simp)
            | some prT =>
                obtain ⟨c', ns⟩ := prT
                rw [hrecT] at htrav
                simp only [Option.some.injEq, Prod.mk.injEq] at htrav
                obtain ⟨hn', hlst⟩ := htrav
                subst hn'
                subst hlst
                obtain ⟨hne, _, _, _⟩ :=
                  traverseGo_last stor maxH k fuel c (height + p.length) c' ns hrecT
                rw [lastNode_cons_of_ne_nil _ _ hne] at hleaf
                cases hrecD : deleteGo stor maxH k fuel c (height + p.length) with
                | none => rw [hrecD] at hdel; exact absurd hdel (by simp)
                | some res0 =>
                    rw [hrecD] at hdel
                    have hrel0 := ih c (height + p.length) c' ns v res0 hrecT hleaf hrecD
                    cases hlb : lastBinaryIdx ns with
                    | none =>
                        have hres0 := (SpecRel_none stor maxH k c' ns res0 hlb).mp hrel0
                        subst hres0
                        simp only [Option.some.injEq] at hdel
                        subst hdel
                        have hlbl : lastBinaryIdx (Node.edge hs hgt p c' :: ns) =
                            none := by
                          simp [lastBinaryIdx_cons, hlb, Node.isBinaryNode]
                        exact (SpecRel_none stor maxH k _ _ _ hlbl).mpr rfl
                    | some i =>
                        have hlbl : lastBinaryIdx (Node.edge hs hgt p c' :: ns) =
                            some (i + 1) := by
                          simp [lastBinaryIdx_cons, hlb, Node.isBinaryNode]
                        obtain ⟨bhs, bhgt, bl, br, p1, c1, hget, hmg, harm⟩ :=
                          (SpecRel_some stor maxH k c' ns res0 i hlb).mp hrel0
                        refine (SpecRel_some stor maxH k _ _ _ (i + 1) hlbl).mpr ?_
                        refine ⟨bhs, bhgt, bl, br, p1, c1, hget, hmg, ?_⟩
                        cases i with
                        | zero =>
                            have hres0 : res0 = .spliced bhgt p1 c1 := harm
                            subst hres0
                            simp only [Option.some.injEq] at hdel
                            subst hdel
                            show _ = DelRes.kept
                              (specRebuild k (.edge hs hgt p c')
                                (Node.edge hs hgt p c' :: ns) 1 bhgt p1 c1)
                            rw [specRebuild_one_edge k hs hgt p c' ns bhgt p1 c1 hm]
                        | succ i0 =>
                            have hres0 : res0 =
                                .kept (specRebuild k c' ns (i0 + 1) bhgt p1 c1) := harm
                            subst hres0
                            simp only [Option.some.injEq] at hdel
                            subst hdel
                            show _ = DelRes.kept
                              (specRebuild k (.edge hs hgt p c')
                                (Node.edge hs hgt p c' :: ns) (i0 + 2) bhgt p1 c1)
                            rw [specRebuild_cons_edge k hs hgt p c' ns i0
                              bhgt p1 c1 hm]
          · rw [if_neg hm] at htrav
            simp only [Option.some.injEq, Prod.mk.injEq] at htrav
            obtain ⟨hn', hlst⟩ := htrav
            subst hlst
            simp [lastNode] at hleaf

theorem deleteSpec_eval_none (stor : Storage) (maxH : Nat) (k : List Bool)
    (root : Node) (lst : List Node) (hlb : lastBinaryIdx lst = none) :
    deleteSpec stor maxH k root lst = some (.unresolved 0) := by
  unfold deleteSpec
  rw [hlb]

theorem deleteSpec_eval_some (stor : Storage) (maxH : Nat) (k : List Bool)
    (root : Node) (lst : List Node) (i : Nat) (bhs : Option Felt) (bhgt : Nat)
    (bl br : Node) (p1 : List Bool) (c1 : Node)
    (hlb : lastBinaryIdx lst = some i)
    (hget : lst.get? i = some (.binary bhs bhgt bl br))
    (hmg : mergeEdges stor maxH bhgt [!keyBit k bhgt]
      (if keyBit k bhgt then bl else br) = some (p1, c1)) :
    deleteSpec stor maxH k root lst = some (specRebuild k root lst i bhgt p1 c1) := by
  simp only [deleteSpec, hlb, hget, hmg]

/-- C4: deletion splice — for a key whose traversal ends in a leaf, whenever
`delete_leaf` completes, the tree it produces is exactly the path-indexed
description of spec 4.4 applied to the traversal path: with no binary node on
the path the root is reset to `Unresolved(0)`; otherwise the deepest binary
on the path is replaced in place by the `merge_edges`-normalised edge at the
binary's height, whose path starts with the single inverted-direction bit and
whose child is the surviving child, and if the next ancestor up is an edge,
it is merged with that new edge as well (`deleteSpec` / `specRebuild`). -/
theorem C4_delete_splice (stor : Storage) (maxH : Nat) (root : Node) (k : List Bool)
    (fuel : Nat) (root' : Node) (lst : List Node) (v : Felt) (rt : Node)
    (htrav : traverse stor maxH root k fuel = some (root', lst))
    (hleaf : lastNode lst = some (.leaf v))
    (hdel : deleteLeaf stor maxH root k fuel = some rt) :
    deleteSpec stor maxH k root' lst = some rt := by
  unfold traverse at htrav
  unfold deleteLeaf at hdel
  by_cases he : root.isEmptyNode
  · rw [if_pos he] at htrav
    simp only [Option.some.injEq, Prod.mk.injEq] at htrav
    rw [← htrav.2] at hleaf
    simp [lastNode] at hleaf
  · rw [if_neg he] at htrav
    rw [if_neg he] at hdel
    cases hrec : deleteGo stor maxH k fuel root 0 with
    | none => rw [hrec] at hdel; exact absurd hdel (by simp)
    | some res =>
        rw [hrec] at hdel
        have hrel := deleteGo_spec stor maxH k fuel root 0 root' lst v res
          htrav hleaf hrec
        cases hlb : lastBinaryIdx lst with
        | none =>
            have hres := (SpecRel_none stor maxH k root' lst res hlb).mp hrel
            subst hres
            simp only [Option.some.injEq] at hdel
            rw [deleteSpec_eval_none stor maxH k root' lst hlb, hdel]
        | some i =>
            obtain ⟨bhs, bhgt, bl, br, p1, c1, hget, hmg, harm⟩ :=
              (SpecRel_some stor maxH k root' lst res i hlb).mp hrel
            rw [deleteSpec_eval_some stor maxH k root' lst i bhs bhgt bl br p1 c1
              hlb hget hmg]
            cases i with
            | zero =>
                have hres : res = .spliced bhgt p1 c1 := harm
                subst hres
                simp only [Option.some.injEq] at hdel
                rw [specRebuild_zero, hdel]
            | succ i0 =>
                have hres : res =
                    .kept (specRebuild k root' lst (i0 + 1) bhgt p1 c1) := harm
                subst hres
                simp only [Option.some.injEq] at hdel
                rw [hdel]

theorem C4_delete_splice_witness :
    traverse nullStorage 1 (.binary none 0 (.leaf 3) (.leaf 4)) [false] 5 =
      some (.binary none 0 (.leaf 3) (.leaf 4),
        [.binary none 0 (.leaf 3) (.leaf 4), .leaf 3]) ∧
    lastNode [Node.binary none 0 (.leaf 3) (.leaf 4), Node.leaf 3] =
      some (.leaf 3) ∧
    deleteLeaf nullStorage 1 (.binary none 0 (.leaf 3) (.leaf 4)) [false] 5 =
      some (.edge none 0 [true] (.leaf 4)) ∧
    deleteSpec nullStorage 1 [false] (.binary none 0 (.leaf 3) (.leaf 4))
      [.binary none 0 (.leaf 3) (.leaf 4), .leaf 3] =
      some (.edge none 0 [true] (.leaf 4)) :=
  ⟨by decide, by decide, by decide,
    C4_delete_splice nullStorage 1 (.binary none 0 (.leaf 3) (.leaf 4)) [false] 5
      (.binary none 0 (.leaf 3) (.leaf 4))
      [.binary none 0 (.leaf 3) (.leaf 4), .leaf 3] 3
      (.edge none 0 [true] (.leaf 4)) (by decide) (by decide) (by decide)⟩

end MPT
